import Mathlib

/-!
Shallow embedding of the lexical scanner in `src/compiler/lexer.rs` of
kmaebashi/rust-samplan, together with proofs about the claims of its
specification.

Modelling conventions:
* `char` is Lean `Char`; a source file is a nonempty list of lines
  (`BufRead::lines` strips the terminating newlines, so lines are plain
  character lists).  File I/O (`File::open`, read failures) is abstracted
  away: the `lines` iterator becomes a pure `List (List Char)`.
* Every `exit(1)` / `panic!` site in the Rust source becomes a `LexError`
  value; `get_token` returns `Except LexError (Token × Lexer)` where the
  Rust method mutates `&mut self` and returns `Token`.
* `str::parse::<i32>()` is modelled by `parse_i32`, faithful on the
  digit-only strings the scanner feeds it (overflow beyond `2147483647`
  is a parse failure, which the Rust code turns into a `Not a number!`
  panic).  `str::parse::<f64>()` never fails on a `d+.d+` span; the f64
  payload is modelled as the raw decimal text passed to `parse`
  (floating-point rounding itself is not modelled).
* The scan loop of `get_token` is embedded as a single-iteration `step`
  function plus a fuel-indexed iterator `loopF`; one unit of fuel is one
  iteration of the Rust `loop`.  `lexerMeasure + 1` units of fuel always
  suffice (theorem `loopF_ne_none` below), so `get_token`'s fallback
  token `.error .fuelExhausted` is provably never produced
  (theorem `get_token_ne_fuelExhausted`).
-/

namespace Samplan

/-- The scanner states, from `enum Status` in lexer.rs. -/
inductive Status where
  | Initial
  | Comment
  | IntPart
  | DecimalPoint
  | AfterDecimalPoint
  | AlNum
  | String
  | Operator
deriving DecidableEq

/-- Token kinds, from `enum TokenType` in lexer.rs.  `Identifier` and
`StringValue` carry the text as a character list (Rust `String`),
`IntValue` carries the parsed `i32` value, and `RealValue` carries the
raw decimal span handed to `str::parse::<f64>()` (see module comment). -/
inductive TokenType where
  | Var
  | Boolean
  | Int
  | Real
  | String
  | Function
  | True
  | False
  | If
  | Elsif
  | Else
  | While
  | Return
  | Identifier (name : List Char)
  | IntValue (value : Int)
  | RealValue (value : List Char)
  | StringValue (str : List Char)
  | Plus
  | Minus
  | Asterisk
  | Slash
  | LeftBrace
  | RightBrace
  | LeftParen
  | RightParen
  | Equal
  | NotEqual
  | Assignment
  | GreaterThan
  | GreaterEqual
  | LessThan
  | LessEqual
  | LogicalAnd
  | LogicalOr
  | Increment
  | Decrement
  | Comma
  | Semicolon
  | EndOfFile
deriving DecidableEq

/-- The keyword table `KEYWORD_ARRAY` of lexer.rs, in source order. -/
def KEYWORD_ARRAY : List (List Char × TokenType) :=
  [ (['v','a','r'], .Var),
    (['b','o','o','l','e','a','n'], .Boolean),
    (['i','n','t'], .Int),
    (['r','e','a','l'], .Real),
    (['s','t','r','i','n','g'], .String),
    (['f','u','n','c','t','i','o','n'], .Function),
    (['t','r','u','e'], .True),
    (['f','a','l','s','e'], .False),
    (['i','f'], .If),
    (['e','l','s','i','f'], .Elsif),
    (['e','l','s','e'], .Else),
    (['w','h','i','l','e'], .While),
    (['r','e','t','u','r','n'], .Return) ]

/-- The operator table `OPERATOR_ARRAY` of lexer.rs, in source order. -/
def OPERATOR_ARRAY : List (List Char × TokenType) :=
  [ (['+'], .Plus),
    (['-'], .Minus),
    (['*'], .Asterisk),
    (['/'], .Slash),
    (['{'], .LeftBrace),
    (['}'], .RightBrace),
    (['('], .LeftParen),
    ([')'], .RightParen),
    (['='], .Equal),
    (['!','='], .NotEqual),
    ([':','='], .Assignment),
    (['>'], .GreaterThan),
    (['>','='], .GreaterEqual),
    (['<'], .LessThan),
    (['<','='], .LessEqual),
    (['&','&'], .LogicalAnd),
    (['|','|'], .LogicalOr),
    (['+','+'], .Increment),
    (['-','-'], .Decrement),
    ([','], .Comma),
    ([';'], .Semicolon) ]

/-- `struct Token` of lexer.rs. -/
structure Token where
  token_type : TokenType
  line_number : Int
deriving DecidableEq

/-- `struct Lexer` of lexer.rs: the cursor state.  The `lines` iterator
over the not-yet-loaded physical lines is modelled as a pure list. -/
structure Lexer where
  current_line_number : Int
  current_line : List Char
  current_index : Nat
  lines : List (List Char)
  at_eol : Bool
deriving DecidableEq

/-- The fatal exits of the scanner: each constructor corresponds to one
`exit(1)` / `panic!` / failing `expect` site of lexer.rs.
`fuelExhausted` is a modelling artifact of the fuel-indexed loop and is
proved unreachable (`get_token_ne_fuelExhausted`). -/
inductive LexError where
  | invalidChar (c : Char)
  | stringNewline
  | invalidEscape (c : Char)
  | unterminatedString
  | notANumber
  | invalidUngetc
  | notOperator
  | fuelExhausted
deriving DecidableEq

/-- `Lexer::new`: construction on a nonempty list of physical lines
(the Rust code exits if the file is empty, so the constructor is only
reachable with a first line in hand). -/
def Lexer.new (first : List Char) (rest : List (List Char)) : Lexer :=
  ⟨1, first, 0, rest, false⟩

/-- The Rust range pattern `'0'..='9'`. -/
def is_digit_ch (c : Char) : Bool := decide ('0' ≤ c ∧ c ≤ '9')

/-- The Rust pattern `'a'..='z' | 'A'..='Z' | '_'`. -/
def is_alpha_ch (c : Char) : Bool :=
  decide (('a' ≤ c ∧ c ≤ 'z') ∨ ('A' ≤ c ∧ c ≤ 'Z') ∨ c = '_')

/-- The Rust pattern `'a'..='z' | 'A'..='Z' | '_' | '0'..='9'` used in
the `AlNum` state. -/
def is_alnum_ch (c : Char) : Bool := is_alpha_ch c || is_digit_ch c

/-- The Rust pattern `' ' | '\t' | '\r' | '\n'` of the `Initial` state. -/
def is_space_ch (c : Char) : Bool :=
  decide (c = ' ' ∨ c = '\t' ∨ c = '\r' ∨ c = '\n')

/-- Reading one character at the current position of the current line:
the second half of `Lexer::getc` (after any line reload).  If the index
is inside the line, return that character and advance; otherwise return
the synthetic `'\n'` and set `at_eol` (the Rust `assert_eq!` that the
index equals the length there is covered by the invariant theorem for
claim C8). -/
def read_current (l : Lexer) : Char × Lexer :=
  if h : l.current_index < l.current_line.length then
    (l.current_line.get ⟨l.current_index, h⟩,
     { l with current_index := l.current_index + 1 })
  else
    ('\n', { l with at_eol := true })

/-- `Lexer::getc`: if `at_eol` is set, load the next physical line first
(returning `none` at true end of input), then read at the current
position. -/
def getc (l : Lexer) : Option (Char × Lexer) :=
  if l.at_eol then
    match l.lines with
    | [] => none
    | ln :: rest =>
        some (read_current
          { l with current_line := ln, current_index := 0,
                   lines := rest, at_eol := false })
  else
    some (read_current l)

/-- `Lexer::ungetc`: move the index back one place unless the last read
was the synthetic end-of-line (then the flag, not the index, carries the
position); un-reading with no character consumed is the
`panic!("invalid ungetc()")`. -/
def ungetc (l : Lexer) : Except LexError Lexer :=
  if l.current_index > 0 then
    if l.at_eol = false then
      .ok { l with current_index := l.current_index - 1 }
    else
      .ok l
  else
    .error .invalidUngetc

/-- `Lexer::is_keyword`: first exact match in the keyword table. -/
def is_keyword (char_array : List Char) : Option TokenType :=
  (KEYWORD_ARRAY.find? (fun op => op.1 == char_array)).map (·.2)

/-- `Lexer::is_operator_start`: some operator spelling starts with the
character. -/
def is_operator_start (ch : Char) : Bool :=
  OPERATOR_ARRAY.any (fun op => op.1.head? == some ch)

/-- `Lexer::in_operator`: the accumulated lexeme is still a prefix of
some operator spelling. -/
def in_operator (char_array : List Char) : Bool :=
  OPERATOR_ARRAY.any (fun op => char_array.isPrefixOf op.1)

/-- `Lexer::get_operator`: exact match in the operator table; `none`
models the `panic!("not operator")`. -/
def get_operator (char_array : List Char) : Option TokenType :=
  (OPERATOR_ARRAY.find? (fun op => op.1 == char_array)).map (·.2)

/-- `Lexer::convert_string_escape`, written as recursion on the body
with the `escaping` flag as second argument; errors model the two fatal
exits (invalid escape character / unterminated string). -/
def convert_string_escape_from : List Char → Bool → Except LexError (List Char)
  | [], true => .error .unterminatedString
  | [], false => .ok []
  | c :: rest, false =>
      if c = '\\' then convert_string_escape_from rest true
      else
        match convert_string_escape_from rest false with
        | .error e => .error e
        | .ok d => .ok (c :: d)
  | c :: rest, true =>
      if c = 'n' then
        match convert_string_escape_from rest false with
        | .error e => .error e
        | .ok d => .ok ('\n' :: d)
      else .error (.invalidEscape c)

/-- `Lexer::convert_string_escape`. -/
def convert_string_escape (src : List Char) : Except LexError (List Char) :=
  convert_string_escape_from src false

/-- The numeric value of a digit string (the value `str::parse` computes). -/
def digits_to_nat (s : List Char) : Nat :=
  s.foldl (fun a c => a * 10 + (c.toNat - '0'.toNat)) 0

/-- `str::parse::<i32>()` as called by the scanner: the scanner only
feeds it nonempty all-digit strings; the parse fails (Rust: `Err`, hence
the `expect("Not a number!")` panic) iff the value overflows `i32`. -/
def parse_i32 (s : List Char) : Option Int :=
  if s ≠ [] ∧ s.all is_digit_ch then
    if digits_to_nat s ≤ 2147483647 then some (digits_to_nat s) else none
  else none

deriving instance DecidableEq for Except

/-- The Rust slice `self.current_line[a..b]`. -/
def sliceLine (line : List Char) (a b : Nat) : List Char :=
  (line.drop a).take (b - a)

/-- The outcome of one iteration of the `loop` in `Lexer::get_token`:
either continue looping with new state / status / start index, or leave
the loop with a final result. -/
inductive StepRes where
  | cont (l : Lexer) (st : Status) (si : Nat)
  | done (r : Except LexError (Token × Lexer))

/-- `current_line_number += 1`. -/
def incLine (l : Lexer) : Lexer :=
  { l with current_line_number := l.current_line_number + 1 }

/-- The `break` path of the `IntPart` state: unget the delimiter, slice
the lexeme, parse it as `i32`. -/
def finishInt (l₁ : Lexer) (si : Nat) : Except LexError (Token × Lexer) :=
  match ungetc l₁ with
  | .error e => .error e
  | .ok l₂ =>
    match parse_i32 (sliceLine l₂.current_line si l₂.current_index) with
    | none => .error .notANumber
    | some v => .ok (⟨.IntValue v, l₂.current_line_number⟩, l₂)

/-- The `break` path of the `AfterDecimalPoint` state. -/
def finishReal (l₁ : Lexer) (si : Nat) : Except LexError (Token × Lexer) :=
  match ungetc l₁ with
  | .error e => .error e
  | .ok l₂ =>
      .ok (⟨.RealValue (sliceLine l₂.current_line si l₂.current_index),
            l₂.current_line_number⟩, l₂)

/-- The keyword-or-identifier dispatch on a closed lexeme: the `match
Self::is_keyword(..)` expression of the `AlNum` break path. -/
def kw_or_ident (sl : List Char) : TokenType :=
  match is_keyword sl with
  | some keyword => keyword
  | none => .Identifier sl

/-- The `break` path of the `AlNum` state: unget the delimiter, slice
the lexeme, keyword lookup, else an identifier with the raw text. -/
def finishAlnum (l₁ : Lexer) (si : Nat) : Except LexError (Token × Lexer) :=
  match ungetc l₁ with
  | .error e => .error e
  | .ok l₂ =>
      .ok (⟨kw_or_ident (sliceLine l₂.current_line si l₂.current_index),
            l₂.current_line_number⟩, l₂)

/-- The `break` path of the `Operator` state: unget the last character,
exact-match the lexeme in the operator table. -/
def finishOp (l₁ : Lexer) (si : Nat) : Except LexError (Token × Lexer) :=
  match ungetc l₁ with
  | .error e => .error e
  | .ok l₂ =>
    match get_operator (sliceLine l₂.current_line si l₂.current_index) with
    | none => .error .notOperator
    | some tt => .ok (⟨tt, l₂.current_line_number⟩, l₂)

/-- The closing-quote path of the `String` state: slice the body
(excluding both quotes; the closing quote was just consumed, hence the
`- 1`), decode escapes. -/
def finishString (l₁ : Lexer) (si : Nat) : Except LexError (Token × Lexer) :=
  match convert_string_escape
      (sliceLine l₁.current_line si (l₁.current_index - 1)) with
  | .error e => .error e
  | .ok s => .ok (⟨.StringValue s, l₁.current_line_number⟩, l₁)

/-- The body of one iteration of the `loop` in `Lexer::get_token` after
a character `ch` has been read (the new cursor state being `l₁`): the
`match current_status` of lexer.rs, with branches in source order. -/
def step_ch : Char → Lexer → Status → Nat → StepRes
  | ch, l₁, .Initial, si =>
    if ch = '#' then .cont l₁ .Comment si
    else if is_digit_ch ch then .cont l₁ .IntPart (l₁.current_index - 1)
    else if is_alpha_ch ch then .cont l₁ .AlNum (l₁.current_index - 1)
    else if ch = '\"' then .cont l₁ .String l₁.current_index
    else if is_space_ch ch then
      if ch = '\n' then .cont (incLine l₁) .Initial si
      else .cont l₁ .Initial si
    else if is_operator_start ch then .cont l₁ .Operator (l₁.current_index - 1)
    else .done (.error (.invalidChar ch))
  | ch, l₁, .Comment, si =>
    if ch = '\n' then .cont (incLine l₁) .Initial si
    else .cont l₁ .Comment si
  | ch, l₁, .IntPart, si =>
    if is_digit_ch ch then .cont l₁ .IntPart si
    else if ch = '.' then .cont l₁ .DecimalPoint si
    else .done (finishInt l₁ si)
  | ch, l₁, .DecimalPoint, si =>
    if is_digit_ch ch then .cont l₁ .AfterDecimalPoint si
    else .done (.error (.invalidChar ch))
  | ch, l₁, .AfterDecimalPoint, si =>
    if is_digit_ch ch then .cont l₁ .AfterDecimalPoint si
    else .done (finishReal l₁ si)
  | ch, l₁, .AlNum, si =>
    if is_alnum_ch ch then .cont l₁ .AlNum si
    else .done (finishAlnum l₁ si)
  | ch, l₁, .String, si =>
    if ch = '\"' then .done (finishString l₁ si)
    else if ch = '\n' then .done (.error .stringNewline)
    else .cont l₁ .String si
  | _ch, l₁, .Operator, si =>
    if in_operator (sliceLine l₁.current_line si l₁.current_index)
        && !l₁.at_eol then .cont l₁ .Operator si
    else .done (finishOp l₁ si)

/-- One iteration of the `loop` in `Lexer::get_token`: pull a character
(emitting `EndOfFile` when the input is exhausted) and dispatch on the
current status. -/
def step (l : Lexer) (st : Status) (si : Nat) : StepRes :=
  match getc l with
  | none => .done (.ok (⟨.EndOfFile, l.current_line_number⟩, l))
  | some (ch, l₁) => step_ch ch l₁ st si

/-- The `loop` of `Lexer::get_token`, indexed by fuel; one unit of fuel
per iteration. -/
def loopF : Nat → Lexer → Status → Nat → Option (Except LexError (Token × Lexer))
  | 0, _, _, _ => none
  | fuel + 1, l, st, si =>
    match step l st si with
    | .done r => some r
    | .cont l' st' si' => loopF fuel l' st' si'

/-- Characters (including the synthetic end-of-line of each line) still
to be delivered from the not-yet-loaded lines. -/
def charsLeft : List (List Char) → Nat
  | [] => 0
  | ln :: rest => ln.length + 1 + charsLeft rest

/-- Upper bound on the number of `getc` calls that can still return a
character: each successful `getc` decreases it by exactly one. -/
def lexerMeasure (l : Lexer) : Nat :=
  (if l.at_eol then 0 else (l.current_line.length - l.current_index) + 1)
    + charsLeft l.lines

/-- `Lexer::get_token`: run the scan loop from the `Initial` state with
`start_index = 0`.  `lexerMeasure l + 1` fuel always suffices
(`loopF_ne_none` below), so the fallback is dead code. -/
def get_token (l : Lexer) : Except LexError (Token × Lexer) :=
  (loopF (lexerMeasure l + 1) l .Initial 0).getD (.error .fuelExhausted)

/-- Fuel-indexed repeated `getc`: the full character stream the cursor
can still deliver. -/
def drainF : Nat → Lexer → List Char
  | 0, _ => []
  | fuel + 1, l =>
    match getc l with
    | none => []
    | some (c, l') => c :: drainF fuel l'

/-- The full character stream the cursor delivers from state `l`
(`lexerMeasure l + 1` fuel is exact, see the claim C5 theorem). -/
def drainAll (l : Lexer) : List Char :=
  drainF (lexerMeasure l + 1) l


/-- The statuses in whose `break` path `get_token` calls `ungetc` to
push back the delimiter character, plus `DecimalPoint` (entered and left
only on really-read characters, never on the synthetic end-of-line). -/
def midSt : Status → Bool
  | .IntPart => true
  | .DecimalPoint => true
  | .AfterDecimalPoint => true
  | .AlNum => true
  | .Operator => true
  | _ => false

/-- The claim C8 loop invariant: the cursor index stays within
`[0, length]` of the current line, and in every mid-token status at
least one character of the current line has been consumed and the
synthetic end-of-line has not been crossed — exactly what makes the
pending `ungetc` of the delimiter legal. -/
def ScanInv (st : Status) (l : Lexer) : Prop :=
  l.current_index ≤ l.current_line.length
  ∧ (midSt st = true → l.at_eol = false ∧ 0 < l.current_index)

/-- What the claim C8 invariant guarantees about a finished scan: a
returned lexer keeps the index bound, an error is never the
`invalid ungetc()` panic. -/
def lexOk : Except LexError (Token × Lexer) → Prop
  | .ok (_, l₂) => l₂.current_index ≤ l₂.current_line.length
  | .error e => e ≠ .invalidUngetc

/-- The claim C8 invariant, stated over a step result. -/
def resOk : StepRes → Prop
  | .cont l₂ st₂ _ => ScanInv st₂ l₂
  | .done r => lexOk r

/-! ## Fuel infrastructure -/

theorem lexerMeasure_incLine (l : Lexer) :
    lexerMeasure (incLine l) = lexerMeasure l := rfl

theorem read_current_measure (l : Lexer) (h : l.at_eol = false) :
    lexerMeasure (read_current l).2 + 1 = lexerMeasure l := by
  unfold read_current lexerMeasure
  split <;> simp [h] <;> omega

theorem getc_measure {l : Lexer} {c : Char} {l' : Lexer}
    (h : getc l = some (c, l')) : lexerMeasure l' + 1 = lexerMeasure l := by
  unfold getc at h
  by_cases he : l.at_eol = true
  · rw [if_pos he] at h
    rcases hl : l.lines with _ | ⟨ln, rest⟩ <;> rw [hl] at h
    · exact absurd h (by simp)
    · simp only [Option.some.injEq] at h
      set l₀ : Lexer :=
        { l with current_line := ln, current_index := 0,
                 lines := rest, at_eol := false } with hl₀
      have h2 := read_current_measure l₀ rfl
      have hsnd : (read_current l₀).2 = l' := by rw [h]
      rw [hsnd] at h2
      rw [h2, hl₀]
      simp [lexerMeasure, charsLeft, he, hl]
      try omega
  · rw [if_neg he] at h
    simp only [Option.some.injEq] at h
    have h2 := read_current_measure l (by simpa using he)
    have hsnd : (read_current l).2 = l' := by rw [h]
    rwa [hsnd] at h2

theorem step_ch_cont_measure {ch : Char} {l₁ : Lexer} {st : Status} {si : Nat}
    {l' : Lexer} {st' : Status} {si' : Nat}
    (h : step_ch ch l₁ st si = .cont l' st' si') :
    lexerMeasure l' = lexerMeasure l₁ := by
  cases st <;> simp only [step_ch] at h <;> (repeat' split at h) <;>
    (try cases h) <;> rfl

theorem step_cont_measure {l : Lexer} {st : Status} {si : Nat}
    {l' : Lexer} {st' : Status} {si' : Nat}
    (h : step l st si = .cont l' st' si') : lexerMeasure l' < lexerMeasure l := by
  unfold step at h
  rcases hg : getc l with _ | ⟨c, l₁⟩ <;> rw [hg] at h
  · exact absurd h (by simp)
  · have hm := getc_measure hg
    have := step_ch_cont_measure h
    omega

theorem loopF_ne_none :
    ∀ fuel (l : Lexer) (st : Status) (si : Nat), lexerMeasure l < fuel →
      loopF fuel l st si ≠ none := by
  intro fuel
  induction fuel with
  | zero => intro l st si h; omega
  | succ n ih =>
    intro l st si h
    unfold loopF
    rcases hs : step l st si with ⟨l', st', si'⟩ | r
    · exact ih l' st' si'
        (by have := step_cont_measure hs; omega)
    · simp

theorem loopF_mono :
    ∀ fuel f₂ (l : Lexer) (st : Status) (si : Nat) r, fuel ≤ f₂ →
      loopF fuel l st si = some r → loopF f₂ l st si = some r := by
  intro fuel
  induction fuel with
  | zero => intro f₂ l st si r _ h; exact absurd h (by simp [loopF])
  | succ n ih =>
    intro f₂ l st si r hle h
    rcases f₂ with _ | k
    · omega
    · unfold loopF at h ⊢
      rcases hs : step l st si with ⟨l', st', si'⟩ | r₀ <;> rw [hs] at h
      · exact ih k l' st' si' r (by omega) h
      · exact h

theorem get_token_of_loopF {fuel : Nat} {l : Lexer} {r : Except LexError (Token × Lexer)}
    (h : loopF fuel l .Initial 0 = some r) : get_token l = r := by
  unfold get_token
  rcases Nat.le_total fuel (lexerMeasure l + 1) with hle | hle
  · rw [loopF_mono _ _ _ _ _ _ hle h]; rfl
  · rcases ho : loopF (lexerMeasure l + 1) l .Initial 0 with _ | r₂
    · exact absurd ho (loopF_ne_none _ _ _ _ (Nat.lt_succ_self _))
    · have h2 := loopF_mono _ _ _ _ _ _ hle ho
      rw [h] at h2
      cases h2
      rfl

theorem convert_from_ne_fuel :
    ∀ (s : List Char) (b : Bool),
      convert_string_escape_from s b ≠ .error .fuelExhausted := by
  intro s
  induction s with
  | nil => intro b; cases b <;> simp [convert_string_escape_from]
  | cons c rest ih =>
    intro b
    cases b <;> unfold convert_string_escape_from <;> split
    · exact ih true
    · split
      · intro h; cases h
        exact ih false (by assumption)
      · simp
    · split
      · intro h; cases h
        exact ih false (by assumption)
      · simp
    · simp

theorem ungetc_ne_fuel (l : Lexer) : ungetc l ≠ .error .fuelExhausted := by
  unfold ungetc
  (repeat split) <;> simp

theorem step_done_ne_fuel {l : Lexer} {st : Status} {si : Nat}
    (h : step l st si = .done (.error .fuelExhausted)) : False := by
  unfold step at h
  rcases hg : getc l with _ | ⟨c, l₁⟩ <;> rw [hg] at h
  · simp at h
  · cases st <;>
      simp only [step_ch, finishInt, finishReal, finishAlnum, finishOp,
        finishString, convert_string_escape] at h <;>
      (repeat' split at h) <;> (try cases h) <;>
      first
        | exact ungetc_ne_fuel _ (by assumption)
        | exact convert_from_ne_fuel _ _ (by assumption)

theorem loopF_ne_fuel :
    ∀ fuel (l : Lexer) (st : Status) (si : Nat),
      loopF fuel l st si ≠ some (.error .fuelExhausted) := by
  intro fuel
  induction fuel with
  | zero => intro l st si; simp [loopF]
  | succ n ih =>
    intro l st si
    unfold loopF
    rcases hs : step l st si with ⟨l', st', si'⟩ | r
    · exact ih l' st' si'
    · intro hc
      simp only [Option.some.injEq] at hc
      exact step_done_ne_fuel (hc ▸ hs)

/-- The fallback value of `get_token` is dead code: `lexerMeasure l + 1`
units of fuel always complete the scan loop. -/
theorem get_token_ne_fuelExhausted (l : Lexer) :
    get_token l ≠ .error .fuelExhausted := by
  unfold get_token
  rcases ho : loopF (lexerMeasure l + 1) l .Initial 0 with _ | r
  · exact absurd ho (loopF_ne_none _ _ _ _ (Nat.lt_succ_self _))
  · intro hc
    simp only [Option.getD] at hc
    rw [hc] at ho
    exact loopF_ne_fuel _ _ _ _ ho

/-! ## Single-step and scanning-run lemmas -/

theorem step_of_getc {l : Lexer} {c : Char} {l₁ : Lexer} (st : Status) (si : Nat)
    (hg : getc l = some (c, l₁)) : step l st si = step_ch c l₁ st si := by
  unfold step; rw [hg]

theorem step_of_getc_none {l : Lexer} (st : Status) (si : Nat)
    (hg : getc l = none) :
    step l st si = .done (.ok (⟨.EndOfFile, l.current_line_number⟩, l)) := by
  unfold step; rw [hg]

theorem getc_inline {n : Int} {line : List Char} {i : Nat}
    {ls : List (List Char)} (h : i < line.length) :
    getc ⟨n, line, i, ls, false⟩
      = some (line.get ⟨i, h⟩, ⟨n, line, i + 1, ls, false⟩) := by
  unfold getc read_current
  simp [h]

theorem getc_eol {n : Int} {line : List Char} {i : Nat}
    {ls : List (List Char)} (h : line.length ≤ i) :
    getc ⟨n, line, i, ls, false⟩ = some ('\n', ⟨n, line, i, ls, true⟩) := by
  unfold getc read_current
  simp [Nat.not_lt.mpr h]

theorem getc_pop {n : Int} {line : List Char} {i : Nat} {ln : List Char}
    {rest : List (List Char)} :
    getc ⟨n, line, i, ln :: rest, true⟩ = getc ⟨n, ln, 0, rest, false⟩ := rfl

theorem getc_none {n : Int} {line : List Char} {i : Nat} :
    getc ⟨n, line, i, [], true⟩ = none := rfl

theorem loopF_cont {fuel : Nat} {l : Lexer} {st : Status} {si : Nat}
    {l' : Lexer} {st' : Status} {si' : Nat}
    (h : step l st si = .cont l' st' si') :
    loopF (fuel + 1) l st si = loopF fuel l' st' si' := by
  have he : loopF (fuel + 1) l st si
      = match step l st si with
        | .done r => some r
        | .cont l₂ st₂ si₂ => loopF fuel l₂ st₂ si₂ := rfl
  rw [he, h]

theorem loopF_done {fuel : Nat} {l : Lexer} {st : Status} {si : Nat}
    {r : Except LexError (Token × Lexer)}
    (h : step l st si = .done r) :
    loopF (fuel + 1) l st si = some r := by
  have he : loopF (fuel + 1) l st si
      = match step l st si with
        | .done r => some r
        | .cont l₂ st₂ si₂ => loopF fuel l₂ st₂ si₂ := rfl
  rw [he, h]

/-- `cs` is the segment of `line` that starts at index `i`. -/
def segAt (line : List Char) (i : Nat) (cs : List Char) : Prop :=
  ∃ t, line.drop i = cs ++ t

theorem segAt_cons {line : List Char} {i : Nat} {c : Char} {cs : List Char}
    (h : segAt line i (c :: cs)) :
    ∃ hi : i < line.length,
      line.get ⟨i, hi⟩ = c ∧ segAt line (i + 1) cs := by
  obtain ⟨t, ht⟩ := h
  simp only [List.cons_append] at ht
  have hi : i < line.length := by
    by_contra hc
    rw [List.drop_eq_nil_iff.mpr (by omega)] at ht
    exact absurd ht (by simp)
  have hd := List.drop_eq_getElem_cons hi
  rw [ht] at hd
  injection hd with h1 h2
  exact ⟨hi, h1.symm, ⟨t, h2.symm⟩⟩

/-- The characters on which each scanner state keeps looping without
changing state or start index (and without touching the line number). -/
def stays : Status → Char → Bool
  | .Initial, c => is_space_ch c && !(c == '\n')
  | .Comment, c => !(c == '\n')
  | .IntPart, c => is_digit_ch c
  | .AfterDecimalPoint, c => is_digit_ch c
  | .AlNum, c => is_alnum_ch c
  | .String, c => !(c == '\"') && !(c == '\n')
  | _, _ => false

theorem step_ch_stays {c : Char} {l₁ : Lexer} {st : Status} {si : Nat}
    (h : stays st c = true) : step_ch c l₁ st si = .cont l₁ st si := by
  cases st <;> simp only [stays] at h
  case Initial =>
    simp only [Bool.and_eq_true, beq_iff_eq, Bool.not_eq_true] at h
    obtain ⟨hs, hn⟩ := h
    have hc : c = ' ' ∨ c = '\t' ∨ c = '\r' := by
      simp only [is_space_ch, decide_eq_true_eq] at hs
      rcases hs with h | h | h | h <;> simp [h] at hn ⊢
    rcases hc with rfl | rfl | rfl <;> simp [step_ch, is_space_ch,
      is_digit_ch, is_alpha_ch, is_operator_start]
  case Comment =>
    have hn : ¬(c = '\n') := by simpa using h
    simp [step_ch, hn]
  case IntPart => simp [step_ch, h]
  case AfterDecimalPoint => simp [step_ch, h]
  case AlNum => simp [step_ch, h]
  case String =>
    rw [Bool.and_eq_true] at h
    have h1 : ¬(c = '\"') := by simpa using h.1
    have h2 : ¬(c = '\n') := by simpa using h.2
    simp [step_ch, h1, h2]
  all_goals simp at h

/-- Scanning-run lemma: while every character of the segment `cs`
satisfies `stays`, the loop consumes `cs` from inside the current line,
one unit of fuel per character, leaving state, status and start index
otherwise unchanged. -/
theorem loopF_run :
    ∀ (cs : List Char) (fuel : Nat) (n : Int) (line : List Char) (i : Nat)
      (ls : List (List Char)) (st : Status) (si : Nat),
      (∀ c ∈ cs, stays st c = true) → segAt line i cs →
      loopF (cs.length + fuel) ⟨n, line, i, ls, false⟩ st si
        = loopF fuel ⟨n, line, i + cs.length, ls, false⟩ st si := by
  intro cs
  induction cs with
  | nil => intro fuel n line i ls st si _ _; simp
  | cons c cs ih =>
    intro fuel n line i ls st si hall hseg
    obtain ⟨hi, hget, hseg2⟩ := segAt_cons hseg
    have hg := @getc_inline n line i ls hi
    rw [hget] at hg
    have hstep := step_of_getc st si hg
    rw [step_ch_stays (hall c (by simp))] at hstep
    have : c :: cs = [c] ++ cs := rfl
    calc loopF ((c :: cs).length + fuel) ⟨n, line, i, ls, false⟩ st si
        = loopF (cs.length + fuel) ⟨n, line, i + 1, ls, false⟩ st si := by
          rw [show (c :: cs).length + fuel = (cs.length + fuel) + 1 by simp; omega]
          exact loopF_cont hstep
      _ = loopF fuel ⟨n, line, (i + 1) + cs.length, ls, false⟩ st si :=
          ih fuel n line (i + 1) ls st si (fun x hx => hall x (by simp [hx])) hseg2
      _ = loopF fuel ⟨n, line, i + (c :: cs).length, ls, false⟩ st si := by
          rw [show (i + 1) + cs.length = i + (c :: cs).length by simp; omega]

/-! ## Shape lemmas about getc and the lookup tables -/

theorem read_current_shape {l₀ : Lexer} (he : l₀.at_eol = false)
    {c : Char} {l₁ : Lexer} (h : read_current l₀ = (c, l₁)) :
    (l₁.at_eol = false ∧ 0 < l₁.current_index
        ∧ l₁.current_index ≤ l₁.current_line.length
        ∧ l₁.current_line[l₁.current_index - 1]? = some c)
    ∨ (l₁.at_eol = true ∧ c = '\n') := by
  unfold read_current at h
  split at h
  case isTrue hlt =>
    left
    injection h with h1 h2
    subst h2
    refine ⟨he, by simp, by simpa using hlt, ?_⟩
    have hq : l₀.current_line[l₀.current_index]?
        = some (l₀.current_line.get ⟨l₀.current_index, hlt⟩) := by
      simp [List.getElem?_eq_getElem hlt]
    simpa [hq] using congrArg some h1
  case isFalse hlt =>
    right
    injection h with h1 h2
    subst h2
    exact ⟨rfl, h1.symm⟩

theorem getc_shape {l : Lexer} {c : Char} {l₁ : Lexer}
    (h : getc l = some (c, l₁)) :
    (l₁.at_eol = false ∧ 0 < l₁.current_index
        ∧ l₁.current_index ≤ l₁.current_line.length
        ∧ l₁.current_line[l₁.current_index - 1]? = some c)
    ∨ (l₁.at_eol = true ∧ c = '\n') := by
  unfold getc at h
  by_cases he : l.at_eol = true
  · rw [if_pos he] at h
    rcases hl : l.lines with _ | ⟨ln, rest⟩ <;> rw [hl] at h
    · exact absurd h (by simp)
    · simp only [Option.some.injEq] at h
      exact read_current_shape rfl h
  · rw [if_neg he] at h
    simp only [Option.some.injEq] at h
    exact read_current_shape (by simpa using he) h

theorem table_lookup_mem {table : List (List Char × TokenType)}
    {p : List Char × TokenType → Bool} {k : TokenType}
    (h : (table.find? p).map (·.2) = some k) : k ∈ table.map (·.2) := by
  rw [Option.map_eq_some'] at h
  obtain ⟨a, ha, h2⟩ := h
  exact h2 ▸ List.mem_map_of_mem _ (List.mem_of_find?_eq_some ha)

theorem is_keyword_mem {s : List Char} {k : TokenType}
    (h : is_keyword s = some k) : k ∈ KEYWORD_ARRAY.map (·.2) :=
  table_lookup_mem h

theorem get_operator_mem {s : List Char} {k : TokenType}
    (h : get_operator s = some k) : k ∈ OPERATOR_ARRAY.map (·.2) :=
  table_lookup_mem h

theorem is_keyword_ne_eof {s : List Char} :
    is_keyword s ≠ some TokenType.EndOfFile := by
  intro h
  have := is_keyword_mem h
  revert this
  decide

theorem get_operator_ne_eof {s : List Char} :
    get_operator s ≠ some TokenType.EndOfFile := by
  intro h
  have := get_operator_mem h
  revert this
  decide

/-! ## Only the end-of-input branch emits `EndOfFile` -/

theorem finishInt_ne_eof {l₁ : Lexer} {si : Nat} {t : Token} {l' : Lexer}
    (h : finishInt l₁ si = .ok (t, l')) : t.token_type ≠ .EndOfFile := by
  unfold finishInt at h
  split at h
  next e heq => cases h
  next l₂ heq =>
    split at h
    next hp => cases h
    next v hp => cases h; simp

theorem finishReal_ne_eof {l₁ : Lexer} {si : Nat} {t : Token} {l' : Lexer}
    (h : finishReal l₁ si = .ok (t, l')) : t.token_type ≠ .EndOfFile := by
  unfold finishReal at h
  split at h
  next e heq => cases h
  next l₂ heq => cases h; simp

theorem kw_or_ident_ne_eof (sl : List Char) : kw_or_ident sl ≠ .EndOfFile := by
  unfold kw_or_ident
  split
  next keyword hk =>
    intro hc
    rw [hc] at hk
    exact is_keyword_ne_eof hk
  next => simp

theorem finishAlnum_ne_eof {l₁ : Lexer} {si : Nat} {t : Token} {l' : Lexer}
    (h : finishAlnum l₁ si = .ok (t, l')) : t.token_type ≠ .EndOfFile := by
  unfold finishAlnum at h
  split at h
  next e heq => cases h
  next l₂ heq =>
    cases h
    exact kw_or_ident_ne_eof _

theorem finishOp_ne_eof {l₁ : Lexer} {si : Nat} {t : Token} {l' : Lexer}
    (h : finishOp l₁ si = .ok (t, l')) : t.token_type ≠ .EndOfFile := by
  unfold finishOp at h
  split at h
  next e heq => cases h
  next l₂ heq =>
    split at h
    next ho => cases h
    next tt ho =>
      cases h
      intro hc
      have hc2 : tt = .EndOfFile := hc
      rw [hc2] at ho
      exact get_operator_ne_eof ho

theorem finishString_ne_eof {l₁ : Lexer} {si : Nat} {t : Token} {l' : Lexer}
    (h : finishString l₁ si = .ok (t, l')) : t.token_type ≠ .EndOfFile := by
  unfold finishString at h
  split at h
  next e heq => cases h
  next s heq => cases h; simp

theorem step_ch_ok_ne_eof {c : Char} {l₁ : Lexer} {st : Status} {si : Nat}
    {t : Token} {l' : Lexer} (h : step_ch c l₁ st si = .done (.ok (t, l'))) :
    t.token_type ≠ .EndOfFile := by
  cases st <;> simp only [step_ch] at h <;> (repeat' split at h) <;>
    first
      | (injection h with h2; exact finishInt_ne_eof h2)
      | (injection h with h2; exact finishReal_ne_eof h2)
      | (injection h with h2; exact finishAlnum_ne_eof h2)
      | (injection h with h2; exact finishOp_ne_eof h2)
      | (injection h with h2; exact finishString_ne_eof h2)
      | (injection h with h2; injection h2)
      | injection h

theorem loopF_eof_shape :
    ∀ fuel (l : Lexer) (st : Status) (si : Nat) (t : Token) (l' : Lexer),
      loopF fuel l st si = some (.ok (t, l')) → t.token_type = .EndOfFile →
      getc l' = none ∧ t.line_number = l'.current_line_number := by
  intro fuel
  induction fuel with
  | zero => intro l st si t l' h _; exact absurd h (by simp [loopF])
  | succ n ih =>
    intro l st si t l' h ht
    unfold loopF at h
    rcases hs : step l st si with ⟨l₂, st₂, si₂⟩ | r <;> rw [hs] at h
    · exact ih l₂ st₂ si₂ t l' h ht
    · simp only [Option.some.injEq] at h
      subst h
      unfold step at hs
      rcases hg : getc l with _ | ⟨c, l₁⟩ <;> rw [hg] at hs
      · injection hs with h1
        injection h1 with h2
        injection h2 with h3 h4
        subst h4
        rw [← h3]
        exact ⟨hg, rfl⟩
      · exact absurd ht (step_ch_ok_ne_eof hs)

/-! ## The cursor character stream (claim C5 support) -/

/-- Closed form of the character stream the cursor still has to
deliver: the rest of the current line with its synthetic newline
(unless already consumed), then every further line followed by its
synthetic newline. -/
def streamOf (l : Lexer) : List Char :=
  (if l.at_eol = true then [] else l.current_line.drop l.current_index ++ ['\n'])
    ++ l.lines.flatMap (fun ln => ln ++ ['\n'])

theorem read_current_stream {l₀ : Lexer} (he : l₀.at_eol = false)
    {c : Char} {l₁ : Lexer} (h : read_current l₀ = (c, l₁)) :
    streamOf l₀ = c :: streamOf l₁ := by
  unfold read_current at h
  split at h
  case isTrue hlt =>
    injection h with h1 h2
    subst h2
    have h1e : l₀.current_line[l₀.current_index] = c := h1
    unfold streamOf
    simp only [he]
    simp
    rw [List.drop_eq_getElem_cons hlt, h1e]
    simp
  case isFalse hlt =>
    injection h with h1 h2
    subst h2
    unfold streamOf
    simp only [he]
    simp
    rw [List.drop_eq_nil_iff.mpr (by omega)]
    simp [← h1]

theorem getc_stream {l : Lexer} {c : Char} {l₁ : Lexer}
    (h : getc l = some (c, l₁)) : streamOf l = c :: streamOf l₁ := by
  unfold getc at h
  by_cases he : l.at_eol = true
  · rw [if_pos he] at h
    rcases hl : l.lines with _ | ⟨ln, rest⟩ <;> rw [hl] at h
    · exact absurd h (by simp)
    · simp only [Option.some.injEq] at h
      have h2 := read_current_stream rfl h
      rw [← h2]
      unfold streamOf
      simp [he, hl]
  · rw [if_neg he] at h
    simp only [Option.some.injEq] at h
    exact read_current_stream (by simpa using he) h

theorem getc_eq_none_iff (l : Lexer) :
    getc l = none ↔ (l.at_eol = true ∧ l.lines = []) := by
  unfold getc
  by_cases he : l.at_eol = true
  · rw [if_pos he]
    rcases hl : l.lines with _ | ⟨ln, rest⟩ <;> simp [he, hl]
  · rw [if_neg he]
    simp [he]

theorem drainF_eq :
    ∀ fuel (l : Lexer), lexerMeasure l < fuel → drainF fuel l = streamOf l := by
  intro fuel
  induction fuel with
  | zero => intro l h; omega
  | succ n ih =>
    intro l hm
    unfold drainF
    rcases hg : getc l with _ | ⟨c, l₁⟩
    · rw [getc_eq_none_iff] at hg
      show ([] : List Char) = streamOf l
      unfold streamOf
      simp [hg.1, hg.2]
    · show c :: drainF n l₁ = streamOf l
      rw [getc_stream hg]
      have hm1 := getc_measure hg
      rw [ih l₁ (by omega)]


/-! ## Character-class facts and single-branch step lemmas -/

theorem alpha_not_digit {c : Char} (ha : is_alpha_ch c = true) :
    is_digit_ch c = false := by
  unfold is_alpha_ch at ha
  unfold is_digit_ch
  rw [decide_eq_true_eq] at ha
  rw [decide_eq_false_iff_not]
  rintro ⟨h0, h9⟩
  rcases ha with ⟨ha1, _⟩ | ⟨hA1, _⟩ | rfl
  · exact absurd (le_trans ha1 h9) (by decide)
  · exact absurd (le_trans hA1 h9) (by decide)
  · exact absurd h9 (by decide)

theorem digit_ne {c k : Char} (hd : is_digit_ch c = true)
    (hk : is_digit_ch k = false) : c ≠ k := by
  intro h; rw [h] at hd; rw [hd] at hk; cases hk

theorem alpha_ne {c k : Char} (hd : is_alpha_ch c = true)
    (hk : is_alpha_ch k = false) : c ≠ k := by
  intro h; rw [h] at hd; rw [hd] at hk; cases hk

theorem step_ch_initial_hash (l₁ : Lexer) (si : Nat) :
    step_ch '#' l₁ .Initial si = .cont l₁ .Comment si := by
  simp [step_ch]

theorem step_ch_initial_newline (l₁ : Lexer) (si : Nat) :
    step_ch '\n' l₁ .Initial si = .cont (incLine l₁) .Initial si := by
  simp [step_ch, is_digit_ch, is_alpha_ch, is_space_ch]

theorem step_ch_initial_digit {c : Char} (l₁ : Lexer) (si : Nat)
    (hd : is_digit_ch c = true) :
    step_ch c l₁ .Initial si = .cont l₁ .IntPart (l₁.current_index - 1) := by
  have h1 : ¬(c = '#') := digit_ne hd (by decide)
  simp [step_ch, h1, hd]

theorem step_ch_initial_alpha {c : Char} (l₁ : Lexer) (si : Nat)
    (ha : is_alpha_ch c = true) :
    step_ch c l₁ .Initial si = .cont l₁ .AlNum (l₁.current_index - 1) := by
  have h1 : ¬(c = '#') := alpha_ne ha (by decide)
  simp [step_ch, h1, alpha_not_digit ha, ha]

theorem step_ch_initial_quote (l₁ : Lexer) (si : Nat) :
    step_ch '\"' l₁ .Initial si = .cont l₁ .String l₁.current_index := by
  simp [step_ch, is_digit_ch, is_alpha_ch]

theorem step_ch_comment_newline (l₁ : Lexer) (si : Nat) :
    step_ch '\n' l₁ .Comment si = .cont (incLine l₁) .Initial si := by
  simp [step_ch]

theorem step_ch_intpart_dot (l₁ : Lexer) (si : Nat) :
    step_ch '.' l₁ .IntPart si = .cont l₁ .DecimalPoint si := by
  simp [step_ch, is_digit_ch]

theorem step_ch_intpart_break {d : Char} (l₁ : Lexer) (si : Nat)
    (hd : is_digit_ch d = false) (hne : d ≠ '.') :
    step_ch d l₁ .IntPart si = .done (finishInt l₁ si) := by
  simp [step_ch, hd, hne]

theorem step_ch_decimal_digit {d : Char} (l₁ : Lexer) (si : Nat)
    (hd : is_digit_ch d = true) :
    step_ch d l₁ .DecimalPoint si = .cont l₁ .AfterDecimalPoint si := by
  simp [step_ch, hd]

theorem step_ch_decimal_break {d : Char} (l₁ : Lexer) (si : Nat)
    (hd : is_digit_ch d = false) :
    step_ch d l₁ .DecimalPoint si = .done (.error (.invalidChar d)) := by
  simp [step_ch, hd]

theorem step_ch_afterdp_break {d : Char} (l₁ : Lexer) (si : Nat)
    (hd : is_digit_ch d = false) :
    step_ch d l₁ .AfterDecimalPoint si = .done (finishReal l₁ si) := by
  simp [step_ch, hd]

theorem step_ch_alnum_break {d : Char} (l₁ : Lexer) (si : Nat)
    (hd : is_alnum_ch d = false) :
    step_ch d l₁ .AlNum si = .done (finishAlnum l₁ si) := by
  simp [step_ch, hd]

theorem step_ch_string_newline (l₁ : Lexer) (si : Nat) :
    step_ch '\n' l₁ .String si = .done (.error .stringNewline) := by
  simp [step_ch]

/-! ## Segment utilities -/

theorem drop_of_seg {line : List Char} {i : Nat} {ds tail : List Char}
    (h : line.drop i = ds ++ tail) :
    line.drop (i + ds.length) = tail := by
  rw [← List.drop_drop ds.length i line, h, List.drop_left]

theorem sliceLine_of_seg {line : List Char} {i : Nat} {ds tail : List Char}
    (h : line.drop i = ds ++ tail) :
    sliceLine line i (i + ds.length) = ds := by
  unfold sliceLine
  rw [show i + ds.length - i = ds.length by omega, h, List.take_left]

theorem len_of_seg_nil {line : List Char} {i : Nat} {ds : List Char}
    (h : line.drop i = ds ++ []) (hle : i ≤ line.length) :
    line.length = i + ds.length := by
  have := congrArg List.length h
  simp [List.length_drop] at this
  omega

theorem seg_lt_len {line : List Char} {i : Nat} {ds tail : List Char}
    (h : line.drop i = ds ++ tail) (hne : ds ≠ []) : i < line.length := by
  by_contra hc
  rw [List.drop_eq_nil_iff.mpr (by omega)] at h
  rcases ds with _ | ⟨a, as⟩
  · exact hne rfl
  · exact absurd h.symm (by simp)


/-! ## Whole-token scanning lemmas -/

theorem ungetc_inline {n : Int} {line : List Char} {i : Nat}
    {ls : List (List Char)} (h : 0 < i) :
    ungetc ⟨n, line, i, ls, false⟩ = .ok ⟨n, line, i - 1, ls, false⟩ := by
  unfold ungetc
  rw [if_pos h]
  simp

theorem ungetc_eol {n : Int} {line : List Char} {i : Nat}
    {ls : List (List Char)} (h : 0 < i) :
    ungetc ⟨n, line, i, ls, true⟩ = .ok ⟨n, line, i, ls, true⟩ := by
  unfold ungetc
  rw [if_pos h]
  simp


theorem finishInt_eval_eol {n : Int} {line : List Char} {i : Nat}
    {ls : List (List Char)} (si : Nat) (h : 0 < i) :
    finishInt ⟨n, line, i, ls, true⟩ si
      = match parse_i32 (sliceLine line si i) with
        | none => .error .notANumber
        | some v => .ok (⟨.IntValue v, n⟩, ⟨n, line, i, ls, true⟩) := by
  unfold finishInt
  rw [ungetc_eol h]

theorem finishInt_eval_inline {n : Int} {line : List Char} {i : Nat}
    {ls : List (List Char)} (si : Nat) (h : 0 < i) :
    finishInt ⟨n, line, i, ls, false⟩ si
      = match parse_i32 (sliceLine line si (i - 1)) with
        | none => .error .notANumber
        | some v => .ok (⟨.IntValue v, n⟩, ⟨n, line, i - 1, ls, false⟩) := by
  unfold finishInt
  rw [ungetc_inline h]

/-- Scanning a maximal digit run from the `Initial` state: with the rest
of the line being `ds ++ tail` (`ds` the nonempty digit run and `tail`
either empty — the delimiter being the synthetic end-of-line — or
starting with a non-digit non-dot delimiter), `get_token` consumes
exactly `ds`, pushes the delimiter back, and emits `IntValue` of the
parsed value, or dies with the `Not a number!` panic on i32 overflow. -/
theorem scan_int {n : Int} {line : List Char} {i : Nat} {ls : List (List Char)}
    {ds tail : List Char}
    (hseg : line.drop i = ds ++ tail) (hne : ds ≠ [])
    (hdig : ∀ c ∈ ds, is_digit_ch c = true)
    (hdelim : tail = [] ∨ ∃ d r, tail = d :: r ∧ is_digit_ch d = false ∧ d ≠ '.') :
    get_token ⟨n, line, i, ls, false⟩
      = match parse_i32 ds with
        | some v => .ok (⟨.IntValue v, n⟩,
            ⟨n, line, i + ds.length, ls, tail.isEmpty⟩)
        | none => .error .notANumber := by
  rcases ds with _ | ⟨d₀, ds'⟩
  · exact absurd rfl hne
  have hseg0 : segAt line i (d₀ :: ds') := ⟨tail, by simpa using hseg⟩
  obtain ⟨hi, hget, hseg1⟩ := segAt_cons hseg0
  refine @get_token_of_loopF ((d₀ :: ds').length + 2) _ _ ?_
  have hg := @getc_inline n line i ls hi
  rw [hget] at hg
  have hs := step_of_getc .Initial 0 hg
  rw [step_ch_initial_digit _ _ (hdig d₀ (by simp))] at hs
  rw [show (d₀ :: ds').length + 2 = ((ds'.length + 2) + 1) from by
    rw [List.length_cons]]
  rw [loopF_cont hs]
  simp only [Nat.add_sub_cancel]
  rw [loopF_run ds' 2 n line (i + 1) ls .IntPart i
    (fun c hc => hdig c (by simp [hc])) hseg1]
  have hidx : i + (d₀ :: ds').length = i + 1 + ds'.length := by
    rw [List.length_cons]; omega
  have hsl : sliceLine line i (i + 1 + ds'.length) = d₀ :: ds' := by
    rw [← hidx]; exact sliceLine_of_seg hseg
  rcases hdelim with rfl | ⟨d, r, rfl, hdnd, hdne⟩
  · have hlen : line.length = i + (d₀ :: ds').length :=
      len_of_seg_nil hseg (le_of_lt hi)
    have hg2 := @getc_eol n line (i + 1 + ds'.length) ls (by omega)
    have hs2 := step_of_getc .IntPart i hg2
    rw [step_ch_intpart_break _ _ (by decide) (by decide)] at hs2
    rw [@loopF_done 1 _ _ _ _ hs2]
    congr 1
    rw [finishInt_eval_eol i (by omega), hsl, hidx]
    rcases hp : parse_i32 (d₀ :: ds') with _ | v <;> rfl
  · have hd2 : line.drop (i + 1 + ds'.length) = d :: r := by
      rw [← hidx]; exact drop_of_seg hseg
    obtain ⟨hi2, hget2, _⟩ :=
      segAt_cons (⟨r, by simpa using hd2⟩ : segAt line (i + 1 + ds'.length) [d])
    have hg2 := @getc_inline n line (i + 1 + ds'.length) ls hi2
    rw [hget2] at hg2
    have hs2 := step_of_getc .IntPart i hg2
    rw [step_ch_intpart_break _ _ hdnd hdne] at hs2
    rw [@loopF_done 1 _ _ _ _ hs2]
    congr 1
    rw [finishInt_eval_inline i (by omega)]
    simp only [Nat.add_sub_cancel]
    rw [hsl, hidx]
    rcases hp : parse_i32 (d₀ :: ds') with _ | v <;> rfl


theorem finishReal_eval_eol {n : Int} {line : List Char} {i : Nat}
    {ls : List (List Char)} (si : Nat) (h : 0 < i) :
    finishReal ⟨n, line, i, ls, true⟩ si
      = .ok (⟨.RealValue (sliceLine line si i), n⟩, ⟨n, line, i, ls, true⟩) := by
  unfold finishReal
  rw [ungetc_eol h]

theorem finishReal_eval_inline {n : Int} {line : List Char} {i : Nat}
    {ls : List (List Char)} (si : Nat) (h : 0 < i) :
    finishReal ⟨n, line, i, ls, false⟩ si
      = .ok (⟨.RealValue (sliceLine line si (i - 1)), n⟩,
          ⟨n, line, i - 1, ls, false⟩) := by
  unfold finishReal
  rw [ungetc_inline h]

theorem finishAlnum_eval_eol {n : Int} {line : List Char} {i : Nat}
    {ls : List (List Char)} (si : Nat) (h : 0 < i) :
    finishAlnum ⟨n, line, i, ls, true⟩ si
      = .ok (⟨kw_or_ident (sliceLine line si i), n⟩, ⟨n, line, i, ls, true⟩) := by
  unfold finishAlnum
  rw [ungetc_eol h]

theorem finishAlnum_eval_inline {n : Int} {line : List Char} {i : Nat}
    {ls : List (List Char)} (si : Nat) (h : 0 < i) :
    finishAlnum ⟨n, line, i, ls, false⟩ si
      = .ok (⟨kw_or_ident (sliceLine line si (i - 1)), n⟩,
          ⟨n, line, i - 1, ls, false⟩) := by
  unfold finishAlnum
  rw [ungetc_inline h]

/-- Scanning a `d+.d+` real literal from the `Initial` state: the whole
span is consumed, the delimiter (non-digit, or the synthetic
end-of-line) pushed back, and `RealValue` of the full span is emitted. -/
theorem scan_real {n : Int} {line : List Char} {i : Nat} {ls : List (List Char)}
    {ds1 ds2 tail : List Char}
    (hseg : line.drop i = ds1 ++ '.' :: ds2 ++ tail)
    (hne1 : ds1 ≠ []) (hne2 : ds2 ≠ [])
    (hd1 : ∀ c ∈ ds1, is_digit_ch c = true)
    (hd2 : ∀ c ∈ ds2, is_digit_ch c = true)
    (hdelim : tail = [] ∨ ∃ d r, tail = d :: r ∧ is_digit_ch d = false) :
    get_token ⟨n, line, i, ls, false⟩
      = .ok (⟨.RealValue (ds1 ++ '.' :: ds2), n⟩,
          ⟨n, line, i + ds1.length + 1 + ds2.length, ls, tail.isEmpty⟩) := by
  rcases hds1 : ds1 with _ | ⟨d₀, ds1'⟩
  · exact absurd hds1 hne1
  subst hds1
  rcases hds2 : ds2 with _ | ⟨e₀, ds2'⟩
  · exact absurd hds2 hne2
  subst hds2
  have hseg0 : segAt line i (d₀ :: ds1') := ⟨'.' :: (e₀ :: ds2') ++ tail, by
    rw [hseg]; simp⟩
  obtain ⟨hi, hget, hseg1⟩ := segAt_cons hseg0
  refine @get_token_of_loopF ((d₀ :: ds1').length + (e₀ :: ds2').length + 2) _ _ ?_
  have hg := @getc_inline n line i ls hi
  rw [hget] at hg
  have hs := step_of_getc .Initial 0 hg
  rw [step_ch_initial_digit _ _ (hd1 d₀ (by simp))] at hs
  rw [show (d₀ :: ds1').length + (e₀ :: ds2').length + 2
      = ((ds1'.length + ((e₀ :: ds2').length + 2)) + 1) from by
    rw [List.length_cons]; omega]
  rw [loopF_cont hs]
  simp only [Nat.add_sub_cancel]
  rw [loopF_run ds1' ((e₀ :: ds2').length + 2) n line (i + 1) ls .IntPart i
    (fun c hc => hd1 c (by simp [hc])) hseg1]
  -- the dot
  have hidx1 : i + (d₀ :: ds1').length = i + 1 + ds1'.length := by
    rw [List.length_cons]; omega
  have hseg' : line.drop i = (d₀ :: ds1') ++ '.' :: ((e₀ :: ds2') ++ tail) := by
    rw [hseg]; simp
  have hdot : line.drop (i + 1 + ds1'.length) = '.' :: ((e₀ :: ds2') ++ tail) := by
    rw [← hidx1]
    exact drop_of_seg hseg' 
  obtain ⟨hi2, hget2, hseg2⟩ := segAt_cons
    (⟨(e₀ :: ds2') ++ tail, by simpa using hdot⟩ :
      segAt line (i + 1 + ds1'.length) ['.'])
  have hg2 := @getc_inline n line (i + 1 + ds1'.length) ls hi2
  rw [hget2] at hg2
  have hs2 := step_of_getc .IntPart i hg2
  rw [step_ch_intpart_dot] at hs2
  rw [show (e₀ :: ds2').length + 2 = ((e₀ :: ds2').length + 1) + 1 from rfl]
  rw [loopF_cont hs2]
  -- first digit after the dot
  have hdig2 : line.drop (i + 1 + ds1'.length + 1) = (e₀ :: ds2') ++ tail :=
    @drop_of_seg line (i + 1 + ds1'.length) ['.'] ((e₀ :: ds2') ++ tail)
      (by simpa using hdot)
  obtain ⟨hi3, hget3, hseg3⟩ := segAt_cons
    (⟨ds2' ++ tail, by simpa using hdig2⟩ :
      segAt line (i + 1 + ds1'.length + 1) [e₀])
  have hg3 := @getc_inline n line (i + 1 + ds1'.length + 1) ls hi3
  rw [hget3] at hg3
  have hs3 := step_of_getc .DecimalPoint i hg3
  rw [step_ch_decimal_digit _ _ (hd2 e₀ (by simp))] at hs3
  rw [loopF_cont hs3]
  rw [show (e₀ :: ds2').length = ds2'.length + 1 from by
    rw [List.length_cons]]
  -- run of the remaining digits
  have hseg4 : segAt line (i + 1 + ds1'.length + 1 + 1) ds2' :=
    ⟨tail, @drop_of_seg line (i + 1 + ds1'.length + 1) [e₀] (ds2' ++ tail)
      (by simpa using hdig2)⟩
  rw [loopF_run ds2' 1 n line (i + 1 + ds1'.length + 1 + 1) ls
    .AfterDecimalPoint i (fun c hc => hd2 c (by simp [hc])) hseg4]
  -- delimiter
  have hsegall : line.drop i = ((d₀ :: ds1') ++ '.' :: (e₀ :: ds2')) ++ tail := by
    rw [hseg]
  have hidxall : i + ((d₀ :: ds1') ++ '.' :: (e₀ :: ds2')).length
      = i + 1 + ds1'.length + 1 + 1 + ds2'.length := by
    simp [List.length_append, List.length_cons]
    omega
  have hsl : sliceLine line i (i + 1 + ds1'.length + 1 + 1 + ds2'.length)
      = (d₀ :: ds1') ++ '.' :: (e₀ :: ds2') := by
    rw [← hidxall]
    exact sliceLine_of_seg hsegall
  rcases hdelim with rfl | ⟨d, r, rfl, hdnd⟩
  · have hlen : line.length = i + ((d₀ :: ds1') ++ '.' :: (e₀ :: ds2')).length :=
      len_of_seg_nil (by simpa using hsegall) (le_of_lt hi)
    rw [hidxall] at hlen
    have hg4 := @getc_eol n line (i + 1 + ds1'.length + 1 + 1 + ds2'.length) ls
      (by omega)
    have hs4 := step_of_getc .AfterDecimalPoint i hg4
    rw [step_ch_afterdp_break _ _ (by decide)] at hs4
    rw [@loopF_done 0 _ _ _ _ hs4]
    rw [finishReal_eval_eol i (by omega), hsl]
    rw [show i + (d₀ :: ds1').length + 1 + (ds2'.length + 1)
        = i + 1 + ds1'.length + 1 + 1 + ds2'.length from by
      rw [List.length_cons]; omega]
    rfl
  · have hd4 : line.drop (i + 1 + ds1'.length + 1 + 1 + ds2'.length) = d :: r := by
      rw [← hidxall]
      exact drop_of_seg hsegall
    obtain ⟨hi4, hget4, _⟩ := segAt_cons
      (⟨r, by simpa using hd4⟩ :
        segAt line (i + 1 + ds1'.length + 1 + 1 + ds2'.length) [d])
    have hg4 := @getc_inline n line (i + 1 + ds1'.length + 1 + 1 + ds2'.length) ls hi4
    rw [hget4] at hg4
    have hs4 := step_of_getc .AfterDecimalPoint i hg4
    rw [step_ch_afterdp_break _ _ hdnd] at hs4
    rw [@loopF_done 0 _ _ _ _ hs4]
    rw [finishReal_eval_inline i (by omega)]
    simp only [Nat.add_sub_cancel]
    rw [hsl]
    rw [show i + (d₀ :: ds1').length + 1 + (ds2'.length + 1)
        = i + 1 + ds1'.length + 1 + 1 + ds2'.length from by
      rw [List.length_cons]; omega]
    rfl

/-- A digit run followed by a dot with no digit after it: the scanner
dies with the invalid-character error at the character after the dot
(the synthetic `'\n'` when the dot ends the line). -/
theorem scan_dot_error {n : Int} {line : List Char} {i : Nat}
    {ls : List (List Char)} {ds tail : List Char}
    (hseg : line.drop i = ds ++ '.' :: tail) (hne : ds ≠ [])
    (hdig : ∀ c ∈ ds, is_digit_ch c = true)
    (hdelim : tail = [] ∨ ∃ d r, tail = d :: r ∧ is_digit_ch d = false) :
    get_token ⟨n, line, i, ls, false⟩
      = .error (.invalidChar (tail.headD '\n')) := by
  rcases hds : ds with _ | ⟨d₀, ds'⟩
  · exact absurd hds hne
  subst hds
  have hseg0 : segAt line i (d₀ :: ds') := ⟨'.' :: tail, by simpa using hseg⟩
  obtain ⟨hi, hget, hseg1⟩ := segAt_cons hseg0
  refine @get_token_of_loopF ((d₀ :: ds').length + 2) _ _ ?_
  have hg := @getc_inline n line i ls hi
  rw [hget] at hg
  have hs := step_of_getc .Initial 0 hg
  rw [step_ch_initial_digit _ _ (hdig d₀ (by simp))] at hs
  rw [show (d₀ :: ds').length + 2 = ((ds'.length + 2) + 1) from by
    rw [List.length_cons]]
  rw [loopF_cont hs]
  simp only [Nat.add_sub_cancel]
  rw [loopF_run ds' 2 n line (i + 1) ls .IntPart i
    (fun c hc => hdig c (by simp [hc])) hseg1]
  have hidx : i + (d₀ :: ds').length = i + 1 + ds'.length := by
    rw [List.length_cons]; omega
  have hdot : line.drop (i + 1 + ds'.length) = '.' :: tail := by
    rw [← hidx]
    exact drop_of_seg hseg
  obtain ⟨hi2, hget2, hseg2⟩ := segAt_cons
    (⟨tail, by simpa using hdot⟩ : segAt line (i + 1 + ds'.length) ['.'])
  have hg2 := @getc_inline n line (i + 1 + ds'.length) ls hi2
  rw [hget2] at hg2
  have hs2 := step_of_getc .IntPart i hg2
  rw [step_ch_intpart_dot] at hs2
  rw [@loopF_cont 1 _ _ _ _ _ _ hs2]
  have hdrop2 : line.drop (i + 1 + ds'.length + 1) = tail :=
    @drop_of_seg line (i + 1 + ds'.length) ['.'] tail
      (by simpa using hdot)
  rcases hdelim with rfl | ⟨d, r, rfl, hdnd⟩
  · have hlen : line.length = i + 1 + ds'.length + 1 := by
      have h2 := congrArg List.length hdrop2
      simp [List.length_drop] at h2
      have h3 := seg_lt_len hseg (by simp)
      omega
    have hg3 := @getc_eol n line (i + 1 + ds'.length + 1) ls (by omega)
    have hs3 := step_of_getc .DecimalPoint i hg3
    rw [step_ch_decimal_break _ _ (by decide)] at hs3
    rw [@loopF_done 0 _ _ _ _ hs3]
    rfl
  · obtain ⟨hi3, hget3, _⟩ := segAt_cons
      (⟨r, by simpa using hdrop2⟩ : segAt line (i + 1 + ds'.length + 1) [d])
    have hg3 := @getc_inline n line (i + 1 + ds'.length + 1) ls hi3
    rw [hget3] at hg3
    have hs3 := step_of_getc .DecimalPoint i hg3
    rw [step_ch_decimal_break _ _ hdnd] at hs3
    rw [@loopF_done 0 _ _ _ _ hs3]
    rfl

/-- Scanning an identifier-shaped lexeme (a letter or underscore, then
letters, digits and underscores) from the `Initial` state: the lexeme is
consumed, the delimiter pushed back, and the keyword-table kind (exact
match) or else `Identifier` with the raw text is emitted. -/
theorem scan_alnum {n : Int} {line : List Char} {i : Nat} {ls : List (List Char)}
    {a : Char} {w2 tail : List Char}
    (hseg : line.drop i = a :: w2 ++ tail)
    (hfa : is_alpha_ch a = true)
    (hall : ∀ c ∈ w2, is_alnum_ch c = true)
    (hdelim : tail = [] ∨ ∃ d r, tail = d :: r ∧ is_alnum_ch d = false) :
    get_token ⟨n, line, i, ls, false⟩
      = .ok (⟨kw_or_ident (a :: w2), n⟩,
          ⟨n, line, i + (a :: w2).length, ls, tail.isEmpty⟩) := by
  have hseg0 : segAt line i (a :: w2) := ⟨tail, by simpa using hseg⟩
  obtain ⟨hi, hget, hseg1⟩ := segAt_cons hseg0
  refine @get_token_of_loopF ((a :: w2).length + 2) _ _ ?_
  have hg := @getc_inline n line i ls hi
  rw [hget] at hg
  have hs := step_of_getc .Initial 0 hg
  rw [step_ch_initial_alpha _ _ hfa] at hs
  rw [show (a :: w2).length + 2 = ((w2.length + 2) + 1) from by
    rw [List.length_cons]]
  rw [loopF_cont hs]
  simp only [Nat.add_sub_cancel]
  rw [loopF_run w2 2 n line (i + 1) ls .AlNum i
    (fun c hc => hall c hc) hseg1]
  have hidx : i + (a :: w2).length = i + 1 + w2.length := by
    rw [List.length_cons]; omega
  have hsl : sliceLine line i (i + 1 + w2.length) = a :: w2 := by
    rw [← hidx]
    exact sliceLine_of_seg (by simpa using hseg)
  rcases hdelim with rfl | ⟨d, r, rfl, hdnd⟩
  · have hlen : line.length = i + (a :: w2).length :=
      len_of_seg_nil (by simpa using hseg) (le_of_lt hi)
    have hg2 := @getc_eol n line (i + 1 + w2.length) ls (by omega)
    have hs2 := step_of_getc .AlNum i hg2
    rw [step_ch_alnum_break _ _ (by decide)] at hs2
    rw [@loopF_done 1 _ _ _ _ hs2]
    congr 1
    rw [finishAlnum_eval_eol i (by omega), hsl, hidx]
    rfl
  · have hd2 : line.drop (i + 1 + w2.length) = d :: r := by
      rw [← hidx]
      exact drop_of_seg (by simpa using hseg)
    obtain ⟨hi2, hget2, _⟩ := segAt_cons
      (⟨r, by simpa using hd2⟩ : segAt line (i + 1 + w2.length) [d])
    have hg2 := @getc_inline n line (i + 1 + w2.length) ls hi2
    rw [hget2] at hg2
    have hs2 := step_of_getc .AlNum i hg2
    rw [step_ch_alnum_break _ _ hdnd] at hs2
    rw [@loopF_done 1 _ _ _ _ hs2]
    congr 1
    rw [finishAlnum_eval_inline i (by omega)]
    simp only [Nat.add_sub_cancel]
    rw [hsl, hidx]
    rfl

/-- A string literal whose body runs to the end of the line without a
closing quote: the scanner consumes the opening quote and the body,
meets the synthetic end-of-line inside the literal, and dies with the
strings-may-not-span-lines error. -/
theorem scan_string_eol {n : Int} {line : List Char} {i : Nat}
    {ls : List (List Char)} {body : List Char}
    (hseg : line.drop i = '\"' :: body)
    (hbody : ∀ c ∈ body, ¬(c = '\"') ∧ ¬(c = '\n')) :
    get_token ⟨n, line, i, ls, false⟩ = .error .stringNewline := by
  have hseg0 : segAt line i ['\"'] := ⟨body, by simpa using hseg⟩
  obtain ⟨hi, hget, hseg1⟩ := segAt_cons hseg0
  refine @get_token_of_loopF (body.length + 2) _ _ ?_
  have hg := @getc_inline n line i ls hi
  rw [hget] at hg
  have hs := step_of_getc .Initial 0 hg
  rw [step_ch_initial_quote] at hs
  rw [show body.length + 2 = ((body.length + 1) + 1) from rfl]
  rw [loopF_cont hs]
  have hb2 : line.drop (i + 1) = body :=
    @drop_of_seg line i ['\"'] body
      (by simpa using hseg)
  have hrun : segAt line (i + 1) body := ⟨[], by simpa using hb2⟩
  rw [loopF_run body 1 n line (i + 1) ls .String (i + 1)
    (fun c hc => by
      have := hbody c hc
      simp [stays, this.1, this.2]) hrun]
  have hlen : line.length = i + 1 + body.length := by
    have h2 := congrArg List.length hb2
    simp [List.length_drop] at h2
    omega
  have hg2 := @getc_eol n line (i + 1 + body.length) ls (by omega)
  have hs2 := step_of_getc .String (i + 1) hg2
  rw [step_ch_string_newline] at hs2
  rw [@loopF_done 0 _ _ _ _ hs2]


theorem parse_i32_digits {ds : List Char} (hne : ds ≠ [])
    (hdig : ∀ c ∈ ds, is_digit_ch c = true) :
    parse_i32 ds
      = if digits_to_nat ds ≤ 2147483647
        then some ((digits_to_nat ds : Int)) else none := by
  unfold parse_i32
  rw [if_pos ⟨hne, by rw [List.all_eq_true]; exact hdig⟩]

theorem convert_from_clean :
    ∀ (pre rest : List Char), '\\' ∉ pre → ∀ e : LexError,
      convert_string_escape_from rest false = .error e →
      convert_string_escape_from (pre ++ rest) false = .error e := by
  intro pre
  induction pre with
  | nil => intro rest _ e h; simpa using h
  | cons p pre ih =>
    intro rest hp e h
    have hpne : ¬(p = '\\') := by
      intro hc; exact hp (by simp [hc])
    have h2 := ih rest (fun hc => hp (by simp [hc])) e h
    show convert_string_escape_from (p :: (pre ++ rest)) false = .error e
    unfold convert_string_escape_from
    rw [if_neg hpne, h2]


/-! ## Line-sequence processing (claims C4 and C9 support) -/

theorem loopF_pop (f : Nat) (m : Int) (line : List Char) (i : Nat)
    (l₂ : List Char) (ls : List (List Char)) (st : Status) (si : Nat) :
    loopF f ⟨m, line, i, l₂ :: ls, true⟩ st si
      = loopF f ⟨m, l₂, 0, ls, false⟩ st si := by
  cases f with
  | zero => rfl
  | succ k => rfl

/-- A whitespace-or-comment-only physical line. -/
def ws_ch (c : Char) : Bool := decide (c = ' ' ∨ c = '\t' ∨ c = '\r')

/-- The line is whitespace, optionally followed by a `#` comment running
to the end of the line. -/
def wsCommentLine (line : List Char) : Prop :=
  ∃ w c, line = w ++ c ∧ (∀ x ∈ w, ws_ch x = true) ∧
    (c = [] ∨ ∃ body, c = '#' :: body ∧ '\n' ∉ body)

/-- Consuming one whole whitespace/comment line from its start: the line
number advances by one and the cursor rests on the consumed synthetic
newline of this line. -/
theorem ws_line_consume {line : List Char} (h : wsCommentLine line)
    (fuel : Nat) (m : Int) (ls : List (List Char)) (si : Nat) :
    loopF (line.length + 1 + fuel) ⟨m, line, 0, ls, false⟩ .Initial si
      = loopF fuel ⟨m + 1, line, line.length, ls, true⟩ .Initial si := by
  obtain ⟨w, c, rfl, hw, hc⟩ := h
  have hwrun : ∀ x ∈ w, stays .Initial x = true := by
    intro x hx
    have := hw x hx
    rw [ws_ch, decide_eq_true_eq] at this
    rcases this with rfl | rfl | rfl <;> decide
  rcases hc with rfl | ⟨body, rfl, hbody⟩
  · -- pure whitespace line
    simp only [List.append_nil]
    rw [show w.length + 1 + fuel = w.length + (1 + fuel) by omega]
    rw [loopF_run w (1 + fuel) m w 0 ls .Initial si hwrun
      ⟨[], by simp⟩]
    simp only [Nat.zero_add]
    have hg := @getc_eol m w w.length ls (le_refl _)
    have hs := step_of_getc .Initial si hg
    rw [step_ch_initial_newline] at hs
    rw [show 1 + fuel = fuel + 1 by omega]
    rw [loopF_cont hs]
    rfl
  · -- whitespace then a comment to end of line
    rw [show (w ++ '#' :: body).length + 1 + fuel
        = w.length + (1 + (body.length + (1 + fuel))) by
      simp [List.length_append, List.length_cons]; omega]
    rw [loopF_run w (1 + (body.length + (1 + fuel))) m (w ++ '#' :: body)
      0 ls .Initial si hwrun ⟨'#' :: body, by simp⟩]
    simp only [Nat.zero_add]
    obtain ⟨hi, hget, _⟩ := segAt_cons
      (⟨body, by simp⟩ : segAt (w ++ '#' :: body) w.length ['#'])
    have hg := @getc_inline m (w ++ '#' :: body) w.length ls hi
    rw [hget] at hg
    have hs := step_of_getc .Initial si hg
    rw [step_ch_initial_hash] at hs
    rw [show 1 + (body.length + (1 + fuel))
        = (body.length + (1 + fuel)) + 1 by omega]
    rw [loopF_cont hs]
    have hbrun : ∀ x ∈ body, stays .Comment x = true := by
      intro x hx
      have : ¬(x = '\n') := fun hc2 => hbody (hc2 ▸ hx)
      simp [stays, this]
    have hbseg : segAt (w ++ '#' :: body) (w.length + 1) body := by
      refine ⟨[], ?_⟩
      have hd : (w ++ '#' :: body).drop w.length = '#' :: body :=
        List.drop_left w ('#' :: body)
      have h2 := @drop_of_seg (w ++ '#' :: body) w.length ['#'] body
        (by simp [hd])
      simp [h2]
    rw [loopF_run body (1 + fuel) m (w ++ '#' :: body)
      (w.length + 1) ls .Comment si hbrun hbseg]
    have hlen : (w ++ '#' :: body).length = w.length + 1 + body.length := by
      simp [List.length_append, List.length_cons]
      omega
    have hg2 := @getc_eol m (w ++ '#' :: body) (w.length + 1 + body.length)
      ls (by omega)
    have hs2 := step_of_getc .Comment si hg2
    rw [step_ch_comment_newline] at hs2
    rw [show 1 + fuel = fuel + 1 by omega]
    rw [loopF_cont hs2]
    show loopF fuel ⟨m + 1, w ++ '#' :: body, w.length + 1 + body.length,
      ls, true⟩ .Initial si = _
    rw [show w.length + 1 + body.length = (w ++ '#' :: body).length from
      hlen.symm]

/-- The cursor state left behind after consuming a list of whole
whitespace/comment lines (one line-number increment per line, the cursor
resting on the last line's consumed synthetic newline). -/
def finalLex (m : Int) (line : List Char) (i : Nat) :
    List (List Char) → Lexer
  | [] => ⟨m, line, i, [], true⟩
  | l₂ :: rest => finalLex (m + 1) l₂ l₂.length rest

theorem finalLex_spec :
    ∀ (ls : List (List Char)) (m : Int) (line : List Char) (i : Nat),
      (finalLex m line i ls).lines = []
      ∧ (finalLex m line i ls).at_eol = true
      ∧ (finalLex m line i ls).current_line_number = m + ls.length := by
  intro ls
  induction ls with
  | nil => intro m line i; exact ⟨rfl, rfl, by simp [finalLex]⟩
  | cons l₂ rest ih =>
    intro m line i
    have h := ih (m + 1) l₂ l₂.length
    refine ⟨h.1, h.2.1, ?_⟩
    rw [show finalLex m line i (l₂ :: rest) = finalLex (m + 1) l₂ l₂.length rest
      from rfl, h.2.2]
    simp only [List.length_cons]
    push_cast
    omega

/-- `get_token` at true end of input: `EndOfFile` with the current line
number, state unchanged. -/
theorem get_token_at_eof {l : Lexer} (h1 : l.at_eol = true)
    (h2 : l.lines = []) :
    get_token l = .ok (⟨.EndOfFile, l.current_line_number⟩, l) := by
  have hnone : getc l = none := (getc_eq_none_iff l).mpr ⟨h1, h2⟩
  exact get_token_of_loopF (@loopF_done 0 _ _ _ _
    (step_of_getc_none .Initial 0 hnone))

/-- Scanning to end of input over whitespace/comment lines only. -/
theorem ws_eof_run :
    ∀ (ls : List (List Char)), (∀ ln ∈ ls, wsCommentLine ln) →
    ∀ (fuel : Nat) (m : Int) (line : List Char) (i : Nat) (si : Nat),
      loopF (charsLeft ls + 1 + fuel) ⟨m, line, i, ls, true⟩ .Initial si
        = some (.ok (⟨.EndOfFile, m + ls.length⟩, finalLex m line i ls)) := by
  intro ls
  induction ls with
  | nil =>
    intro _ fuel m line i si
    have hnone : getc ⟨m, line, i, [], true⟩ = none := rfl
    have hs := step_of_getc_none (l := ⟨m, line, i, [], true⟩) .Initial si hnone
    rw [show charsLeft [] + 1 + fuel = fuel + 1 by simp [charsLeft]; omega]
    rw [@loopF_done fuel _ _ _ _ hs]
    simp [finalLex]
  | cons l₂ rest ih =>
    intro hall fuel m line i si
    rw [show charsLeft (l₂ :: rest) + 1 + fuel
        = l₂.length + 1 + (charsLeft rest + 1 + fuel) by
      simp [charsLeft]; omega]
    rw [loopF_pop]
    rw [ws_line_consume (hall l₂ (by simp)) (charsLeft rest + 1 + fuel) m rest si]
    rw [ih (fun ln h => hall ln (by simp [h])) fuel (m + 1) l₂ l₂.length si]
    rw [show finalLex m line i (l₂ :: rest) = finalLex (m + 1) l₂ l₂.length rest
      from rfl]
    have : m + 1 + (rest.length : Int) = m + ((l₂ :: rest).length : Int) := by
      simp only [List.length_cons]
      push_cast
      omega
    rw [this]


/-- Consuming a run of `k` blank lines (each contributing one synthetic
newline consumed in the `Initial` state, advancing the line number) and
then the single-digit line `7`: the `IntValue` token carries the line
number increased by exactly `k`, the token-terminating synthetic newline
itself being pushed back and never counted. -/
theorem blank_run_int :
    ∀ (k : Nat) (m : Int) (line : List Char) (i : Nat) (si : Nat),
      loopF (k + 3) ⟨m, line, i, List.replicate k [] ++ [['7']], true⟩
          .Initial si
        = some (.ok (⟨.IntValue 7, m + k⟩, ⟨m + k, ['7'], 1, [], true⟩)) := by
  intro k
  induction k with
  | zero =>
    intro m line i si
    simp only [List.replicate, List.nil_append]
    rw [loopF_pop]
    obtain ⟨hi, hget, _⟩ :=
      segAt_cons (⟨[], by simp⟩ : segAt ['7'] 0 ['7'])
    have hg := @getc_inline m ['7'] 0 [] hi
    rw [hget] at hg
    have hs := step_of_getc .Initial si hg
    rw [step_ch_initial_digit _ _ (by decide)] at hs
    rw [show (0 + 3 : Nat) = 2 + 1 from rfl]
    rw [loopF_cont hs]
    have hg2 := @getc_eol m ['7'] 1 [] (by decide)
    have hs2 := step_of_getc .IntPart 0 hg2
    rw [step_ch_intpart_break _ _ (by decide) (by decide)] at hs2
    show loopF 2 ⟨m, ['7'], 1, [], false⟩ .IntPart 0 = _
    rw [@loopF_done 1 _ _ _ _ hs2]
    rw [finishInt_eval_eol 0 (by decide)]
    have hp : parse_i32 (sliceLine ['7'] 0 1) = some 7 := by decide
    rw [hp]
    simp
  | succ k ih =>
    intro m line i si
    rw [show List.replicate (k + 1) ([] : List Char) = [] :: List.replicate k []
      from List.replicate_succ ..]
    rw [List.cons_append, loopF_pop]
    have hg := @getc_eol m [] 0 (List.replicate k [] ++ [['7']]) (by simp)
    have hs := step_of_getc .Initial si hg
    rw [step_ch_initial_newline] at hs
    rw [show k + 1 + 3 = (k + 3) + 1 by omega]
    rw [loopF_cont hs]
    show loopF (k + 3) ⟨m + 1, [], 0, List.replicate k [] ++ [['7']], true⟩
        .Initial si = _
    rw [ih (m + 1) [] 0 si]
    have : m + 1 + (k : Int) = m + ((k + 1 : Nat) : Int) := by
      push_cast
      omega
    rw [this]


/-! ## Cursor invariant (claim C8 support) -/

theorem getc_keeps_len {l : Lexer} {c : Char} {l₁ : Lexer}
    (h : getc l = some (c, l₁))
    (hl : l.current_index ≤ l.current_line.length) :
    l₁.current_index ≤ l₁.current_line.length := by
  obtain ⟨m, line, i, ls, e⟩ := l
  cases e
  · by_cases hi : i < line.length
    · rw [getc_inline hi] at h
      injection h with h1
      injection h1 with h1 h2
      rw [← h2]
      simpa using hi
    · rw [getc_eol (Nat.le_of_not_lt hi)] at h
      injection h with h1
      injection h1 with h1 h2
      rw [← h2]
      simpa using hl
  · cases ls with
    | nil =>
      rw [getc_none] at h
      exact Option.noConfusion h
    | cons ln rest =>
      rw [getc_pop] at h
      by_cases hi : 0 < ln.length
      · rw [getc_inline hi] at h
        injection h with h1
        injection h1 with h1 h2
        rw [← h2]
        simpa using hi
      · rw [getc_eol (Nat.le_of_not_lt hi)] at h
        injection h with h1
        injection h1 with h1 h2
        rw [← h2]
        simp

theorem getc_keeps_pos {l : Lexer} {c : Char} {l₁ : Lexer}
    (h : getc l = some (c, l₁)) (he : l.at_eol = false)
    (hp : 0 < l.current_index) : 0 < l₁.current_index := by
  obtain ⟨m, line, i, ls, e⟩ := l
  cases e
  · by_cases hi : i < line.length
    · rw [getc_inline hi] at h
      injection h with h1
      injection h1 with h1 h2
      rw [← h2]
      simp
    · rw [getc_eol (Nat.le_of_not_lt hi)] at h
      injection h with h1
      injection h1 with h1 h2
      rw [← h2]
      simpa using hp
  · exact absurd he (by simp)

theorem ungetc_ok {l₁ : Lexer} (hp : 0 < l₁.current_index) :
    ∃ l₂, ungetc l₁ = .ok l₂
      ∧ l₂.current_line = l₁.current_line
      ∧ l₂.current_index ≤ l₁.current_index := by
  unfold ungetc
  rw [if_pos hp]
  by_cases he : l₁.at_eol = false
  · rw [if_pos he]
    exact ⟨_, rfl, rfl, Nat.sub_le _ _⟩
  · rw [if_neg he]
    exact ⟨l₁, rfl, rfl, Nat.le_refl _⟩

theorem finishInt_of_ungetc {l₁ l₂ : Lexer} (si : Nat)
    (hu : ungetc l₁ = .ok l₂) :
    finishInt l₁ si
      = match parse_i32 (sliceLine l₂.current_line si l₂.current_index) with
        | none => .error .notANumber
        | some v => .ok (⟨.IntValue v, l₂.current_line_number⟩, l₂) := by
  unfold finishInt
  rw [hu]

theorem finishInt_keeps {l₁ : Lexer} (si : Nat) (hp : 0 < l₁.current_index)
    (hl : l₁.current_index ≤ l₁.current_line.length) :
    (∀ t l₂, finishInt l₁ si = .ok (t, l₂) →
      l₂.current_index ≤ l₂.current_line.length)
    ∧ ∀ e, finishInt l₁ si = .error e → e ≠ .invalidUngetc := by
  obtain ⟨l₂, hu, hline, hidx⟩ := ungetc_ok hp
  constructor
  · intro t l₃ h
    rw [finishInt_of_ungetc si hu] at h
    split at h
    · exact Except.noConfusion h
    · injection h with h1
      injection h1 with h1 h2
      rw [← h2, hline]
      exact Nat.le_trans hidx hl
  · intro e h
    rw [finishInt_of_ungetc si hu] at h
    split at h
    · injection h with h1
      intro hc
      rw [hc] at h1
      exact LexError.noConfusion h1
    · exact Except.noConfusion h

theorem finishReal_keeps {l₁ : Lexer} (si : Nat) (hp : 0 < l₁.current_index)
    (hl : l₁.current_index ≤ l₁.current_line.length) :
    (∀ t l₂, finishReal l₁ si = .ok (t, l₂) →
      l₂.current_index ≤ l₂.current_line.length)
    ∧ ∀ e, finishReal l₁ si = .error e → e ≠ .invalidUngetc := by
  obtain ⟨l₂, hu, hline, hidx⟩ := ungetc_ok hp
  have heval : finishReal l₁ si
      = .ok (⟨.RealValue (sliceLine l₂.current_line si l₂.current_index),
          l₂.current_line_number⟩, l₂) := by
    unfold finishReal
    rw [hu]
  constructor
  · intro t l₃ h
    rw [heval] at h
    injection h with h1
    injection h1 with h1 h2
    rw [← h2, hline]
    exact Nat.le_trans hidx hl
  · intro e h
    rw [heval] at h
    exact Except.noConfusion h

theorem finishAlnum_keeps {l₁ : Lexer} (si : Nat) (hp : 0 < l₁.current_index)
    (hl : l₁.current_index ≤ l₁.current_line.length) :
    (∀ t l₂, finishAlnum l₁ si = .ok (t, l₂) →
      l₂.current_index ≤ l₂.current_line.length)
    ∧ ∀ e, finishAlnum l₁ si = .error e → e ≠ .invalidUngetc := by
  obtain ⟨l₂, hu, hline, hidx⟩ := ungetc_ok hp
  have heval : finishAlnum l₁ si
      = .ok (⟨kw_or_ident (sliceLine l₂.current_line si l₂.current_index),
          l₂.current_line_number⟩, l₂) := by
    unfold finishAlnum
    rw [hu]
  constructor
  · intro t l₃ h
    rw [heval] at h
    injection h with h1
    injection h1 with h1 h2
    rw [← h2, hline]
    exact Nat.le_trans hidx hl
  · intro e h
    rw [heval] at h
    exact Except.noConfusion h

theorem finishOp_of_ungetc {l₁ l₂ : Lexer} (si : Nat)
    (hu : ungetc l₁ = .ok l₂) :
    finishOp l₁ si
      = match get_operator (sliceLine l₂.current_line si l₂.current_index) with
        | none => .error .notOperator
        | some tt => .ok (⟨tt, l₂.current_line_number⟩, l₂) := by
  unfold finishOp
  rw [hu]

theorem finishOp_keeps {l₁ : Lexer} (si : Nat) (hp : 0 < l₁.current_index)
    (hl : l₁.current_index ≤ l₁.current_line.length) :
    (∀ t l₂, finishOp l₁ si = .ok (t, l₂) →
      l₂.current_index ≤ l₂.current_line.length)
    ∧ ∀ e, finishOp l₁ si = .error e → e ≠ .invalidUngetc := by
  obtain ⟨l₂, hu, hline, hidx⟩ := ungetc_ok hp
  constructor
  · intro t l₃ h
    rw [finishOp_of_ungetc si hu] at h
    split at h
    · exact Except.noConfusion h
    · injection h with h1
      injection h1 with h1 h2
      rw [← h2, hline]
      exact Nat.le_trans hidx hl
  · intro e h
    rw [finishOp_of_ungetc si hu] at h
    split at h
    · injection h with h1
      intro hc
      rw [hc] at h1
      exact LexError.noConfusion h1
    · exact Except.noConfusion h

theorem convert_from_ne_ungetc :
    ∀ (s : List Char) (b : Bool),
      convert_string_escape_from s b ≠ .error .invalidUngetc := by
  intro s
  induction s with
  | nil => intro b; cases b <;> simp [convert_string_escape_from]
  | cons c rest ih =>
    intro b
    cases b <;> unfold convert_string_escape_from <;> split
    · exact ih true
    · split
      · intro h; cases h
        exact ih false (by assumption)
      · simp
    · split
      · intro h; cases h
        exact ih false (by assumption)
      · simp
    · simp

theorem finishString_keeps (l₁ : Lexer) (si : Nat) :
    (∀ t l₂, finishString l₁ si = .ok (t, l₂) → l₂ = l₁)
    ∧ ∀ e, finishString l₁ si = .error e → e ≠ .invalidUngetc := by
  constructor
  · intro t l₂ h
    unfold finishString at h
    split at h
    · exact Except.noConfusion h
    · injection h with h1
      injection h1 with h1 h2
      exact h2.symm
  · intro e h
    unfold finishString at h
    split at h
    next e2 heq =>
      injection h with h1
      intro hc
      rw [h1, hc] at heq
      exact convert_from_ne_ungetc _ _ heq
    next s2 heq => exact Except.noConfusion h

theorem scanInv_nonmid {st : Status} {l : Lexer}
    (h : l.current_index ≤ l.current_line.length) (hm : midSt st = false) :
    ScanInv st l := by
  unfold ScanInv
  refine ⟨h, fun hc => ?_⟩
  rw [hm] at hc
  exact Bool.noConfusion hc

theorem scanInv_mid {st : Status} {l : Lexer}
    (h : l.current_index ≤ l.current_line.length)
    (he : l.at_eol = false) (hp : 0 < l.current_index) : ScanInv st l :=
  ⟨h, fun _ => ⟨he, hp⟩⟩

theorem scanInv_enter {st : Status} {ch : Char} {l₁ : Lexer}
    (hl₁ : l₁.current_index ≤ l₁.current_line.length)
    (hshape : (l₁.at_eol = false ∧ 0 < l₁.current_index
        ∧ l₁.current_index ≤ l₁.current_line.length
        ∧ l₁.current_line[l₁.current_index - 1]? = some ch)
      ∨ (l₁.at_eol = true ∧ ch = '\n'))
    (hne : ch ≠ '\n') : ScanInv st l₁ := by
  rcases hshape with ⟨he, hp, _, _⟩ | ⟨_, hnl⟩
  · exact scanInv_mid hl₁ he hp
  · exact absurd hnl hne

theorem step_scan_inv {l : Lexer} {st : Status} (si : Nat)
    (hI : ScanInv st l) : resOk (step l st si) := by
  obtain ⟨hlen, hmid⟩ := hI
  rcases hg : getc l with _ | ⟨ch, l₁⟩
  · rw [step_of_getc_none st si hg]
    exact hlen
  · rw [step_of_getc st si hg]
    have hl₁ : l₁.current_index ≤ l₁.current_line.length :=
      getc_keeps_len hg hlen
    have hshape := getc_shape hg
    cases st
    case Initial =>
      simp only [step_ch]
      by_cases h1 : ch = '#'
      · rw [if_pos h1]
        exact scanInv_nonmid hl₁ rfl
      · rw [if_neg h1]
        by_cases h2 : is_digit_ch ch = true
        · rw [if_pos h2]
          exact scanInv_enter hl₁ hshape
            (fun hc => by rw [hc] at h2; exact absurd h2 (by decide))
        · rw [if_neg h2]
          by_cases h3 : is_alpha_ch ch = true
          · rw [if_pos h3]
            exact scanInv_enter hl₁ hshape
              (fun hc => by rw [hc] at h3; exact absurd h3 (by decide))
          · rw [if_neg h3]
            by_cases h4 : ch = '\"'
            · rw [if_pos h4]
              exact scanInv_nonmid hl₁ rfl
            · rw [if_neg h4]
              by_cases h5 : is_space_ch ch = true
              · rw [if_pos h5]
                by_cases h6 : ch = '\n'
                · rw [if_pos h6]
                  exact scanInv_nonmid hl₁ rfl
                · rw [if_neg h6]
                  exact scanInv_nonmid hl₁ rfl
              · rw [if_neg h5]
                by_cases h7 : is_operator_start ch = true
                · rw [if_pos h7]
                  exact scanInv_enter hl₁ hshape
                    (fun hc => by rw [hc] at h7; exact absurd h7 (by decide))
                · rw [if_neg h7]
                  intro hc
                  exact LexError.noConfusion hc
    case Comment =>
      simp only [step_ch]
      by_cases h1 : ch = '\n'
      · rw [if_pos h1]
        exact scanInv_nonmid hl₁ rfl
      · rw [if_neg h1]
        exact scanInv_nonmid hl₁ rfl
    case IntPart =>
      obtain ⟨he0, hp0⟩ := hmid rfl
      have hp1 := getc_keeps_pos hg he0 hp0
      simp only [step_ch]
      by_cases h1 : is_digit_ch ch = true
      · rw [if_pos h1]
        exact scanInv_enter hl₁ hshape
          (fun hc => by rw [hc] at h1; exact absurd h1 (by decide))
      · rw [if_neg h1]
        by_cases h2 : ch = '.'
        · rw [if_pos h2]
          exact scanInv_enter hl₁ hshape
            (fun hc => absurd (h2.symm.trans hc) (by decide))
        · rw [if_neg h2]
          rcases hr : finishInt l₁ si with e | ⟨t, l₂⟩
          · exact (finishInt_keeps si hp1 hl₁).2 e hr
          · exact (finishInt_keeps si hp1 hl₁).1 t l₂ hr
    case DecimalPoint =>
      simp only [step_ch]
      by_cases h1 : is_digit_ch ch = true
      · rw [if_pos h1]
        exact scanInv_enter hl₁ hshape
          (fun hc => by rw [hc] at h1; exact absurd h1 (by decide))
      · rw [if_neg h1]
        intro hc
        exact LexError.noConfusion hc
    case AfterDecimalPoint =>
      obtain ⟨he0, hp0⟩ := hmid rfl
      have hp1 := getc_keeps_pos hg he0 hp0
      simp only [step_ch]
      by_cases h1 : is_digit_ch ch = true
      · rw [if_pos h1]
        exact scanInv_enter hl₁ hshape
          (fun hc => by rw [hc] at h1; exact absurd h1 (by decide))
      · rw [if_neg h1]
        rcases hr : finishReal l₁ si with e | ⟨t, l₂⟩
        · exact (finishReal_keeps si hp1 hl₁).2 e hr
        · exact (finishReal_keeps si hp1 hl₁).1 t l₂ hr
    case AlNum =>
      obtain ⟨he0, hp0⟩ := hmid rfl
      have hp1 := getc_keeps_pos hg he0 hp0
      simp only [step_ch]
      by_cases h1 : is_alnum_ch ch = true
      · rw [if_pos h1]
        exact scanInv_enter hl₁ hshape
          (fun hc => by rw [hc] at h1; exact absurd h1 (by decide))
      · rw [if_neg h1]
        rcases hr : finishAlnum l₁ si with e | ⟨t, l₂⟩
        · exact (finishAlnum_keeps si hp1 hl₁).2 e hr
        · exact (finishAlnum_keeps si hp1 hl₁).1 t l₂ hr
    case String =>
      simp only [step_ch]
      by_cases h1 : ch = '\"'
      · rw [if_pos h1]
        rcases hr : finishString l₁ si with e | ⟨t, l₂⟩
        · exact (finishString_keeps l₁ si).2 e hr
        · have h2 := (finishString_keeps l₁ si).1 t l₂ hr
          rw [h2]
          exact hl₁
      · rw [if_neg h1]
        by_cases h2 : ch = '\n'
        · rw [if_pos h2]
          intro hc
          exact LexError.noConfusion hc
        · rw [if_neg h2]
          exact scanInv_nonmid hl₁ rfl
    case Operator =>
      obtain ⟨he0, hp0⟩ := hmid rfl
      have hp1 := getc_keeps_pos hg he0 hp0
      simp only [step_ch]
      by_cases h1 : (in_operator (sliceLine l₁.current_line si l₁.current_index)
          && !l₁.at_eol) = true
      · rw [if_pos h1]
        rw [Bool.and_eq_true] at h1
        have hne2 : l₁.at_eol = false := by
          have hne := h1.2
          revert hne
          cases l₁.at_eol <;> simp
        exact scanInv_mid hl₁ hne2 hp1
      · rw [if_neg h1]
        rcases hr : finishOp l₁ si with e | ⟨t, l₂⟩
        · exact (finishOp_keeps si hp1 hl₁).2 e hr
        · exact (finishOp_keeps si hp1 hl₁).1 t l₂ hr

theorem loopF_scan_inv :
    ∀ (fuel : Nat) (l : Lexer) (st : Status) (si : Nat), ScanInv st l →
      ∀ r, loopF fuel l st si = some r → lexOk r := by
  intro fuel
  induction fuel with
  | zero =>
    intro l st si hI r h
    exact Option.noConfusion h
  | succ n ih =>
    intro l st si hI r h
    have hs0 := step_scan_inv si hI
    rcases hs : step l st si with ⟨l₂, st₂, si₂⟩ | r₂
    · rw [loopF_cont hs] at h
      rw [hs] at hs0
      exact ih l₂ st₂ si₂ hs0 r h
    · rw [loopF_done hs] at h
      injection h with h1
      rw [hs] at hs0
      rw [← h1]
      exact hs0

/-! ## Claim theorems -/

/-- C2: operator recognition is greedy longest-match over the operator
table: the two-character input `>=` yields exactly one `GreaterEqual`
token (followed only by `EndOfFile`), never `GreaterThan` then `Equal`;
the space-separated input `> =` yields `GreaterThan` and then `Equal`;
and every spelling in the operator table, given as a whole line, is
recognised as exactly its table kind. -/
theorem c2_operator_longest_match :
    (get_token (Lexer.new ['>','='] [])
        = .ok (⟨.GreaterEqual, 1⟩, ⟨1, ['>','='], 2, [], true⟩)
      ∧ get_token ⟨1, ['>','='], 2, [], true⟩
        = .ok (⟨.EndOfFile, 1⟩, ⟨1, ['>','='], 2, [], true⟩))
    ∧ (get_token (Lexer.new ['>',' ','='] [])
        = .ok (⟨.GreaterThan, 1⟩, ⟨1, ['>',' ','='], 1, [], false⟩)
      ∧ get_token ⟨1, ['>',' ','='], 1, [], false⟩
        = .ok (⟨.Equal, 1⟩, ⟨1, ['>',' ','='], 3, [], true⟩))
    ∧ (∀ op ∈ OPERATOR_ARRAY,
        get_token (Lexer.new op.1 [])
          = .ok (⟨op.2, 1⟩, ⟨1, op.1, op.1.length, [], true⟩)) := by
  refine ⟨⟨by decide, by decide⟩, ⟨by decide, by decide⟩, by decide⟩

/-- C3 counterexample: the claim asserts that a pushed-back character is
always re-delivered by the very next `getc`, including the synthetic
end-of-line. In the state reached after `getc` returned the synthetic
`'\n'` of line `"a"` (next line `"b"`), `ungetc` leaves the state
unchanged, and the next `getc` returns `'b'`, the first character of the
next line, not `'\n'` again. -/
theorem c3_counterexample :
    getc ⟨1, ['a'], 1, [['b']], false⟩
      = some ('\n', ⟨1, ['a'], 1, [['b']], true⟩)
    ∧ ungetc ⟨1, ['a'], 1, [['b']], true⟩ = .ok ⟨1, ['a'], 1, [['b']], true⟩
    ∧ getc ⟨1, ['a'], 1, [['b']], true⟩ = some ('b', ⟨1, ['b'], 1, [], false⟩) :=
  ⟨rfl, rfl, rfl⟩

/-- C3 (amended): after `getc` returns a character `c` read from within
the current line (new state not at end-of-line), `ungetc` moves the
index back one place and the very next `getc` returns `c` again with the
identical state; after `getc` returns the synthetic end-of-line (new
state at end-of-line), the returned character is `'\n'` and `ungetc`
leaves the whole state unchanged — in particular the end-of-line flag
stays set, so the pushed-back `'\n'` is not re-delivered: the next
`getc` proceeds to the next physical line. -/
theorem c3_pushback (l : Lexer) (c : Char) (l1 : Lexer)
    (h : getc l = some (c, l1)) :
    (l1.at_eol = false →
      ungetc l1 = .ok { l1 with current_index := l1.current_index - 1 }
      ∧ getc { l1 with current_index := l1.current_index - 1 }
          = some (c, l1))
    ∧ (l1.at_eol = true →
        c = '\n' ∧ (0 < l1.current_index → ungetc l1 = .ok l1)) := by
  obtain ⟨n, line, i, ls, e⟩ := l1
  rcases getc_shape h with ⟨he, hpos, hle, hget⟩ | ⟨he, hc⟩
  · have he2 : e = false := he
    subst he2
    simp only at hpos hle hget
    constructor
    · intro _
      constructor
      · unfold ungetc
        rw [if_pos hpos]
        simp
      · have hlt : i - 1 < line.length := by omega
        have hi : i - 1 + 1 = i := by omega
        have hgc : line.get ⟨i - 1, hlt⟩ = c := by
          have hq := List.getElem?_eq_getElem hlt
          rw [hq] at hget
          injection hget
        show getc ⟨n, line, i - 1, ls, false⟩ = _
        rw [getc_inline hlt, hgc, hi]
    · intro hcon
      cases hcon
  · have he2 : e = true := he
    subst he2
    constructor
    · intro hcon
      cases hcon
    · intro _
      refine ⟨hc, fun hpos => ?_⟩
      unfold ungetc
      rw [if_pos hpos]
      simp

/-- C3 witness: re-delivery after pushback for a character read from
within the line, at a concrete state. -/
theorem c3_pushback_witness :
    ungetc ⟨1, ['a'], 1, [], false⟩ = .ok ⟨1, ['a'], 0, [], false⟩
    ∧ getc ⟨1, ['a'], 0, [], false⟩ = some ('a', ⟨1, ['a'], 1, [], false⟩) :=
  (c3_pushback ⟨1, ['a'], 0, [], false⟩ 'a' ⟨1, ['a'], 1, [], false⟩ rfl).1 rfl

/-- C5: the cursor delivers, for every physical line, exactly the line's
own characters followed by exactly one synthetic `'\n'` (even though the
underlying lines carry no trailing newline), advancing to the next
physical line only afterwards; and `getc` returns `none` exactly when
the synthetic newline of the current line has been consumed and no
physical lines remain (true end of input). -/
theorem c5_cursor_stream :
    (∀ (first : List Char) (rest : List (List Char)),
      drainAll (Lexer.new first rest)
        = (first :: rest).flatMap (fun ln => ln ++ ['\n']))
    ∧ (∀ l : Lexer, getc l = none ↔ (l.at_eol = true ∧ l.lines = [])) := by
  constructor
  · intro first rest
    unfold drainAll
    rw [drainF_eq _ _ (Nat.lt_succ_self _)]
    unfold streamOf Lexer.new
    simp
  · exact getc_eq_none_iff

/-- C10: once `get_token` has returned an `EndOfFile` token, every
subsequent call returns the same `EndOfFile` token with the same line
number, and the cursor state is unchanged (the same `Lexer` value is
returned). -/
theorem c10_eof_absorbing (l : Lexer) (t : Token) (l2 : Lexer)
    (h : get_token l = .ok (t, l2)) (ht : t.token_type = .EndOfFile) :
    get_token l2 = .ok (t, l2) := by
  unfold get_token at h
  rcases ho : loopF (lexerMeasure l + 1) l .Initial 0 with _ | r
  · exact absurd ho (loopF_ne_none _ _ _ _ (Nat.lt_succ_self _))
  · rw [ho] at h
    simp only [Option.getD] at h
    subst h
    obtain ⟨hnone, hline⟩ := loopF_eof_shape _ _ _ _ _ _ ho ht
    have hstep := step_of_getc_none (l := l2) .Initial 0 hnone
    have hdone := @loopF_done (lexerMeasure l2) _ _ _ _ hstep
    have hgt := get_token_of_loopF hdone
    rw [hgt]
    obtain ⟨tt, tn⟩ := t
    have ht2 : tt = .EndOfFile := ht
    have hn2 : tn = l2.current_line_number := hline
    rw [ht2, hn2]

/-- C10 witness: after the empty one-line input has produced
`EndOfFile` at line 2, the next call returns the same token and state. -/
theorem c10_eof_absorbing_witness :
    get_token ⟨2, [], 0, [], true⟩
      = .ok (⟨.EndOfFile, 2⟩, ⟨2, [], 0, [], true⟩) :=
  c10_eof_absorbing (Lexer.new [] []) ⟨.EndOfFile, 2⟩ ⟨2, [], 0, [], true⟩
    (by decide) rfl


/-- C1 counterexample: the claim promises an `IntValue` token for every
maximal digit sequence, but the ten-digit sequence `2147483648`
overflows `i32`, so `str::parse::<i32>()` fails and the scanner dies
with the `Not a number!` panic instead of producing a token. -/
theorem c1_counterexample :
    get_token (Lexer.new ['2','1','4','7','4','8','3','6','4','8'] [])
      = .error .notANumber := by decide

/-- C1 (amended): for a maximal digit sequence `d+` not followed by a
dot, `get_token` emits `IntValue` of the parsed value when the value
fits in a signed 32-bit integer, and dies with the `Not a number!`
panic on overflow; for `d+.d+` it emits `RealValue` carrying the whole
span; `d+.` with no digit after the dot is a fatal invalid-character
error at the character after the dot; and on digit strings the parse
succeeds exactly up to `2147483647`. -/
theorem c1_numeric_literals :
    (∀ (n : Int) (line : List Char) (i : Nat) (ls : List (List Char))
        (ds tail : List Char),
      line.drop i = ds ++ tail → ds ≠ [] →
      (∀ c ∈ ds, is_digit_ch c = true) →
      (tail = [] ∨ ∃ d r, tail = d :: r ∧ is_digit_ch d = false ∧ d ≠ '.') →
      get_token ⟨n, line, i, ls, false⟩
        = match parse_i32 ds with
          | some v => .ok (⟨.IntValue v, n⟩,
              ⟨n, line, i + ds.length, ls, tail.isEmpty⟩)
          | none => .error .notANumber)
    ∧ (∀ (n : Int) (line : List Char) (i : Nat) (ls : List (List Char))
        (ds1 ds2 tail : List Char),
      line.drop i = ds1 ++ '.' :: ds2 ++ tail → ds1 ≠ [] → ds2 ≠ [] →
      (∀ c ∈ ds1, is_digit_ch c = true) → (∀ c ∈ ds2, is_digit_ch c = true) →
      (tail = [] ∨ ∃ d r, tail = d :: r ∧ is_digit_ch d = false) →
      get_token ⟨n, line, i, ls, false⟩
        = .ok (⟨.RealValue (ds1 ++ '.' :: ds2), n⟩,
            ⟨n, line, i + ds1.length + 1 + ds2.length, ls, tail.isEmpty⟩))
    ∧ (∀ (n : Int) (line : List Char) (i : Nat) (ls : List (List Char))
        (ds tail : List Char),
      line.drop i = ds ++ '.' :: tail → ds ≠ [] →
      (∀ c ∈ ds, is_digit_ch c = true) →
      (tail = [] ∨ ∃ d r, tail = d :: r ∧ is_digit_ch d = false) →
      get_token ⟨n, line, i, ls, false⟩
        = .error (.invalidChar (tail.headD '\n')))
    ∧ (∀ ds : List Char, ds ≠ [] → (∀ c ∈ ds, is_digit_ch c = true) →
      parse_i32 ds
        = if digits_to_nat ds ≤ 2147483647
          then some ((digits_to_nat ds : Int)) else none) :=
  ⟨fun _ _ _ _ _ _ h1 h2 h3 h4 => scan_int h1 h2 h3 h4,
   fun _ _ _ _ _ _ _ h1 h2 h3 h4 h5 h6 => scan_real h1 h2 h3 h4 h5 h6,
   fun _ _ _ _ _ _ h1 h2 h3 h4 => scan_dot_error h1 h2 h3 h4,
   fun _ h1 h2 => parse_i32_digits h1 h2⟩

/-- C1 witness: the theorem applied to the concrete inputs `12;`
(integer, in-line delimiter), `4.5;` (real) and `1.;` (bare dot). -/
theorem c1_numeric_literals_witness :
    get_token ⟨1, ['1','2',';'], 0, [], false⟩
      = .ok (⟨.IntValue 12, 1⟩, ⟨1, ['1','2',';'], 2, [], false⟩)
    ∧ get_token ⟨1, ['4','.','5',';'], 0, [], false⟩
      = .ok (⟨.RealValue ['4','.','5'], 1⟩, ⟨1, ['4','.','5',';'], 3, [], false⟩)
    ∧ get_token ⟨1, ['1','.',';'], 0, [], false⟩
      = .error (.invalidChar ';') := by
  refine ⟨?_, ?_, ?_⟩
  · have h := c1_numeric_literals.1 1 ['1','2',';'] 0 [] ['1','2'] [';']
      rfl (by decide) (by decide) (Or.inr ⟨';', [], rfl, by decide, by decide⟩)
    exact h.trans (by decide)
  · have h := c1_numeric_literals.2.1 1 ['4','.','5',';'] 0 [] ['4'] ['5'] [';']
      rfl (by decide) (by decide) (by decide) (by decide)
      (Or.inr ⟨';', [], rfl, by decide⟩)
    exact h.trans (by decide)
  · have h := c1_numeric_literals.2.2.1 1 ['1','.',';'] 0 [] ['1'] [';']
      rfl (by decide) (by decide) (Or.inr ⟨';', [], rfl, by decide⟩)
    exact h.trans (by decide)

/-- C6: string-literal handling.  The concrete input `"a\nb"` (with a
literal backslash-n inside the quotes) yields a `StringValue` whose
text holds a real newline between `a` and `b`; `"abc"` yields
`StringValue abc` with the quotes excluded; in the escape decoder, a
backslash followed by any character other than `n` is the fatal
invalid-escape error and a body ending while still escaping is the
fatal unterminated-string error (first backslash decides); and a string
literal whose body reaches the end of the line before a closing quote
is the fatal strings-may-not-span-lines error. -/
theorem c6_string_literals :
    (get_token (Lexer.new ['\"','a','\\','n','b','\"'] [])
      = .ok (⟨.StringValue ['a','\n','b'], 1⟩,
          ⟨1, ['\"','a','\\','n','b','\"'], 6, [], false⟩))
    ∧ (get_token (Lexer.new ['\"','a','b','c','\"'] [])
      = .ok (⟨.StringValue ['a','b','c'], 1⟩,
          ⟨1, ['\"','a','b','c','\"'], 5, [], false⟩))
    ∧ (∀ (pre : List Char) (c : Char) (suf : List Char),
        '\\' ∉ pre → ¬(c = 'n') →
        convert_string_escape (pre ++ '\\' :: c :: suf)
          = .error (.invalidEscape c))
    ∧ (∀ pre : List Char, '\\' ∉ pre →
        convert_string_escape (pre ++ ['\\']) = .error .unterminatedString)
    ∧ (∀ (n : Int) (line : List Char) (i : Nat) (ls : List (List Char))
        (body : List Char),
        line.drop i = '\"' :: body →
        (∀ c ∈ body, ¬(c = '\"') ∧ ¬(c = '\n')) →
        get_token ⟨n, line, i, ls, false⟩ = .error .stringNewline) := by
  refine ⟨by decide, by decide, ?_, ?_, ?_⟩
  · intro pre c suf hpre hc
    unfold convert_string_escape
    refine convert_from_clean pre ('\\' :: c :: suf) hpre _ ?_
    unfold convert_string_escape_from
    rw [if_pos rfl]
    unfold convert_string_escape_from
    rw [if_neg hc]
  · intro pre hpre
    unfold convert_string_escape
    refine convert_from_clean pre ['\\'] hpre _ ?_
    rfl
  · intro n line i ls body h1 h2
    exact scan_string_eol h1 h2

/-- C6 witness: the escape-error, unterminated-string and
end-of-line clauses of the theorem at concrete inputs. -/
theorem c6_string_literals_witness :
    convert_string_escape ['a','\\','q','b'] = .error (.invalidEscape 'q')
    ∧ convert_string_escape ['a','b','\\'] = .error .unterminatedString
    ∧ get_token ⟨1, ['\"','a','b'], 0, [], false⟩ = .error .stringNewline :=
  ⟨c6_string_literals.2.2.1 ['a'] 'q' ['b'] (by decide) (by decide),
   c6_string_literals.2.2.2.1 ['a','b'] (by decide),
   c6_string_literals.2.2.2.2 1 ['\"','a','b'] 0 [] ['a','b'] rfl (by decide)⟩

/-- C7: for every identifier-shaped lexeme (letter or underscore first,
then letters, digits, underscores), `get_token` emits the result of the
keyword lookup — the keyword's fixed kind when the text exactly equals
one of the thirteen table spellings (never `Identifier`), and
`Identifier` carrying the lexeme text verbatim otherwise. -/
theorem c7_keywords_identifiers :
    (∀ (n : Int) (line : List Char) (i : Nat) (ls : List (List Char))
        (a : Char) (w2 tail : List Char),
      line.drop i = a :: w2 ++ tail → is_alpha_ch a = true →
      (∀ c ∈ w2, is_alnum_ch c = true) →
      (tail = [] ∨ ∃ d r, tail = d :: r ∧ is_alnum_ch d = false) →
      get_token ⟨n, line, i, ls, false⟩
        = .ok (⟨kw_or_ident (a :: w2), n⟩,
            ⟨n, line, i + (a :: w2).length, ls, tail.isEmpty⟩))
    ∧ (∀ (s : List Char) (k : TokenType), is_keyword s = some k →
        kw_or_ident s = k)
    ∧ (∀ (s : List Char) (k : TokenType), is_keyword s = some k →
        ∀ t : List Char, k ≠ .Identifier t)
    ∧ (∀ s : List Char, is_keyword s = none → kw_or_ident s = .Identifier s)
    ∧ (∀ w ∈ KEYWORD_ARRAY, is_keyword w.1 = some w.2) := by
  refine ⟨?_, ?_, ?_, ?_, by decide⟩
  · intro n line i ls a w2 tail h1 h2 h3 h4
    exact scan_alnum h1 h2 h3 h4
  · intro s k h
    unfold kw_or_ident
    rw [h]
  · intro s k h t hc
    have hm := is_keyword_mem h
    rw [hc] at hm
    simp [KEYWORD_ARRAY] at hm
  · intro s h
    unfold kw_or_ident
    rw [h]

/-- C7 witness: the keyword `while` and the identifier `whilex` at
concrete inputs, via the theorem. -/
theorem c7_keywords_identifiers_witness :
    get_token ⟨1, ['w','h','i','l','e',';'], 0, [], false⟩
      = .ok (⟨.While, 1⟩, ⟨1, ['w','h','i','l','e',';'], 5, [], false⟩)
    ∧ get_token ⟨1, ['w','h','i','l','e','x'], 0, [], false⟩
      = .ok (⟨.Identifier ['w','h','i','l','e','x'], 1⟩,
          ⟨1, ['w','h','i','l','e','x'], 6, [], true⟩) := by
  constructor
  · have h := c7_keywords_identifiers.1 1 ['w','h','i','l','e',';'] 0 []
      'w' ['h','i','l','e'] [';'] rfl (by decide) (by decide)
      (Or.inr ⟨';', [], rfl, by decide⟩)
    exact h.trans (by decide)
  · have h := c7_keywords_identifiers.1 1 ['w','h','i','l','e','x'] 0 []
      'w' ['h','i','l','e','x'] [] (by decide) (by decide) (by decide)
      (Or.inl rfl)
    exact h.trans (by decide)


/-- C4 counterexample: on input `12` then `34` (the first token
terminated by the synthetic end-of-line), the second `get_token` call
returns `IntValue 34` tagged line 1 although one full newline has been
consumed before the token starts — the claim demands line 2.  The
pushed-back synthetic newline keeps the end-of-line flag set, so it is
never re-read in the `Initial` state and the line counter misses it. -/
theorem c4_counterexample :
    get_token (Lexer.new ['1','2'] [['3','4']])
      = .ok (⟨.IntValue 12, 1⟩, ⟨1, ['1','2'], 2, [['3','4']], true⟩)
    ∧ get_token ⟨1, ['1','2'], 2, [['3','4']], true⟩
      = .ok (⟨.IntValue 34, 1⟩, ⟨1, ['3','4'], 2, [], true⟩) := by
  exact ⟨by decide, by decide⟩

/-- C4 (amended): a token carries `N + 1` where `N` counts only the
newlines consumed in the `Initial` or `Comment` states before the token
starts; a synthetic end-of-line consumed as a token's closing delimiter
is pushed back without clearing the end-of-line flag, is never
re-delivered, and is not counted (see the counterexample).  Comments and
blank lines advance the line number without producing tokens: after a
first blank line, `k` further blank lines and the line `7`, the token is
`IntValue 7` at line `k + 2` (all `k + 1` newlines before it were
consumed in `Initial`); the same holds when the first line is the
comment `#x` (its newline consumed in `Comment`). -/
theorem c4_line_attribution :
    ∀ k : Nat,
      (get_token (Lexer.new [] (List.replicate k [] ++ [['7']]))
        = .ok (⟨.IntValue 7, (k : Int) + 2⟩, ⟨(k : Int) + 2, ['7'], 1, [], true⟩))
      ∧ (get_token (Lexer.new ['#','x'] (List.replicate k [] ++ [['7']]))
        = .ok (⟨.IntValue 7, (k : Int) + 2⟩,
            ⟨(k : Int) + 2, ['7'], 1, [], true⟩)) := by
  intro k
  have hcomm : ∀ m : Int, (2 : Int) + m = m + 2 := by omega
  constructor
  · refine @get_token_of_loopF (([] : List Char).length + 1 + (k + 3)) _ _ ?_
    show loopF (([] : List Char).length + 1 + (k + 3))
        ⟨1, [], 0, List.replicate k [] ++ [['7']], false⟩ .Initial 0 = _
    rw [@ws_line_consume [] ⟨[], [], rfl, by simp, Or.inl rfl⟩ (k + 3) 1
      (List.replicate k [] ++ [['7']]) 0]
    show loopF (k + 3) ⟨2, [], 0, List.replicate k [] ++ [['7']], true⟩
        .Initial 0 = _
    rw [blank_run_int k 2 [] 0 0, hcomm]
  · refine @get_token_of_loopF ((['#','x'] : List Char).length + 1 + (k + 3))
      _ _ ?_
    show loopF ((['#','x'] : List Char).length + 1 + (k + 3))
        ⟨1, ['#','x'], 0, List.replicate k [] ++ [['7']], false⟩ .Initial 0 = _
    rw [@ws_line_consume ['#','x'] ⟨[], ['#','x'], rfl, by simp,
      Or.inr ⟨['x'], rfl, by simp⟩⟩ (k + 3) 1
      (List.replicate k [] ++ [['7']]) 0]
    show loopF (k + 3) ⟨2, ['#','x'], 2, List.replicate k [] ++ [['7']], true⟩
        .Initial 0 = _
    rw [blank_run_int k 2 ['#','x'] 2 0, hcomm]

/-- C9: on input made solely of whitespace and comments (every line
whitespace optionally followed by a `#` comment), `get_token` returns
`EndOfFile` — tagged with one plus the number of lines, every synthetic
newline having been consumed in the `Initial` or `Comment` state — and
every further call returns the same `EndOfFile` token with the state
unchanged.  (`get_token` is total by construction: the fuel
`lexerMeasure + 1` always suffices, theorem `loopF_ne_none`.) -/
theorem c9_ws_comments_eof (first : List Char) (rest : List (List Char))
    (h1 : wsCommentLine first) (h2 : ∀ ln ∈ rest, wsCommentLine ln) :
    ∃ lf : Lexer,
      get_token (Lexer.new first rest)
        = .ok (⟨.EndOfFile, (rest.length : Int) + 2⟩, lf)
      ∧ get_token lf = .ok (⟨.EndOfFile, (rest.length : Int) + 2⟩, lf) := by
  refine ⟨finalLex 2 first first.length rest, ?_, ?_⟩
  · refine @get_token_of_loopF (first.length + 1 + (charsLeft rest + 1 + 0))
      _ _ ?_
    show loopF (first.length + 1 + (charsLeft rest + 1 + 0))
        ⟨1, first, 0, rest, false⟩ .Initial 0 = _
    rw [ws_line_consume h1 (charsLeft rest + 1 + 0) 1 rest 0]
    show loopF (charsLeft rest + 1 + 0)
        ⟨2, first, first.length, rest, true⟩ .Initial 0 = _
    rw [ws_eof_run rest h2 0 2 first first.length 0]
    have : (2 : Int) + rest.length = (rest.length : Int) + 2 := by omega
    rw [this]
  · obtain ⟨hl, he, hn⟩ := finalLex_spec rest 2 first first.length
    have h := get_token_at_eof he hl
    rw [hn] at h
    have : (2 : Int) + rest.length = (rest.length : Int) + 2 := by omega
    rw [this] at h
    exact h

/-- C9 witness: the theorem applied to the two-line input made of the
line `space #x` and one blank line. -/
theorem c9_ws_comments_eof_witness :
    ∃ lf : Lexer,
      get_token (Lexer.new [' ','#','x'] [[]])
        = .ok (⟨.EndOfFile, 3⟩, lf)
      ∧ get_token lf = .ok (⟨.EndOfFile, 3⟩, lf) := by
  have h := c9_ws_comments_eof [' ','#','x'] [[]]
    ⟨[' '], ['#','x'], rfl, by decide, Or.inr ⟨['x'], rfl, by decide⟩⟩
    (by intro ln hln
        simp only [List.mem_singleton] at hln
        subst hln
        exact ⟨[], [], rfl, by simp, Or.inl rfl⟩)
  simpa using h


/-- C2 witness: the longest-match theorem applied at the table entry
for `+`, whose membership hypothesis is discharged by evaluation. -/
theorem c2_operator_longest_match_witness :
    (['+'], TokenType.Plus) ∈ OPERATOR_ARRAY
    ∧ get_token (Lexer.new ['+'] [])
        = .ok (⟨.Plus, 1⟩, ⟨1, ['+'], 1, [], true⟩) :=
  ⟨by decide, c2_operator_longest_match.2.2 (['+'], .Plus) (by decide)⟩

/-- C8: starting from any cursor state whose index is within
`[0, length]` of the current line (in particular any freshly constructed
lexer), the lexer state returned by `get_token` again has its index
within `[0, length]` — the invariant holds across the whole
getc/ungetc sequence of the scan, every intermediate state satisfying
`ScanInv` (theorems `step_scan_inv` and `loopF_scan_inv`) — and the scan
never fails with the defensive `invalid ungetc()` panic: every `ungetc`
issued by `get_token` happens with at least one character consumed from
the current line. -/
theorem c8_cursor_invariant (l : Lexer)
    (h : l.current_index ≤ l.current_line.length) :
    (∀ t l₂, get_token l = .ok (t, l₂) →
      l₂.current_index ≤ l₂.current_line.length)
    ∧ get_token l ≠ .error .invalidUngetc := by
  have hI : ScanInv .Initial l := scanInv_nonmid h rfl
  rcases hg : loopF (lexerMeasure l + 1) l .Initial 0 with _ | r
  · exact absurd hg (loopF_ne_none _ _ _ _ (Nat.lt_succ_self _))
  · have hok := loopF_scan_inv _ _ _ _ hI r hg
    have hgt : get_token l = r := by
      unfold get_token
      rw [hg]
      rfl
    constructor
    · intro t l₂ hr
      rw [hgt] at hr
      rw [hr] at hok
      exact hok
    · intro hc
      rw [hgt] at hc
      rw [hc] at hok
      exact hok rfl

/-- C8 witness: the invariant theorem applied to the one-line input `a`,
its index-bound hypothesis discharged by evaluation. -/
theorem c8_cursor_invariant_witness :
    (Lexer.new ['a'] []).current_index
        ≤ (Lexer.new ['a'] []).current_line.length
    ∧ ((∀ t l₂, get_token (Lexer.new ['a'] []) = .ok (t, l₂) →
          l₂.current_index ≤ l₂.current_line.length)
        ∧ get_token (Lexer.new ['a'] []) ≠ .error .invalidUngetc) :=
  ⟨by decide, c8_cursor_invariant (Lexer.new ['a'] []) (by decide)⟩


/-- C4 witness: the amended line-attribution theorem applied at one
blank line before the digit line. -/
theorem c4_line_attribution_witness :
    (get_token (Lexer.new [] (List.replicate 1 [] ++ [['7']]))
      = .ok (⟨.IntValue 7, ((1 : Nat) : Int) + 2⟩,
          ⟨((1 : Nat) : Int) + 2, ['7'], 1, [], true⟩))
    ∧ (get_token (Lexer.new ['#','x'] (List.replicate 1 [] ++ [['7']]))
      = .ok (⟨.IntValue 7, ((1 : Nat) : Int) + 2⟩,
          ⟨((1 : Nat) : Int) + 2, ['7'], 1, [], true⟩)) :=
  c4_line_attribution 1


end Samplan
